import Mathlib

/-!
Verification of the folder-synchronisation program `VeeamTask.py`.

The program mirrors a source directory tree onto a replica tree:
`calculate_md5` fingerprints one file, `calculate_folder_md5` fingerprints a
whole tree via `os.walk` with per-level sorting, `copy_files` copies new and
updated files (recursing through `sync_folders` for subdirectories),
`remove_files` prunes one level of the replica, and `sync_folders` orchestrates
(create replica if missing, mtime/digest short-circuit, copy then prune).

The filesystem is modelled as an inductive tree of files and directories with
modification times.  The side effects of one call are modelled explicitly: the
resulting replica tree, the list of emitted log events, and the first raised
OS error (if any).  `hashlib.md5` is modelled as an idealised collision-free
digest: `calculate_md5` renders the bytes in hex (same alphabet as a real hex
digest, injective on byte lists), and the folder hash — which in the program
only ever absorbs a stream of `update` calls — is modelled by the absorbed
stream itself, so two folder digests are equal in the model exactly when the
program feeds the identical byte stream to md5.
-/

/-- Byte content of a file (each element is one byte, `< 256` for well-formed
files). -/
abbrev Content := List Nat

/-- A filesystem entry: a regular file with a modification time and byte
content, or a directory with a modification time and its listing (name/entry
pairs in `os.listdir` order). -/
inductive Entry : Type where
  | file (mtime : Nat) (content : Content)
  | dir  (mtime : Nat) (entries : List (String × Entry))
deriving Repr

/-- `os.path.getmtime`. -/
def Entry.mtime : Entry → Nat
  | .file mt _ => mt
  | .dir mt _ => mt

/-- Look a name up in a directory listing (first match). -/
def lookup : List (String × Entry) → String → Option Entry
  | [], _ => none
  | (m, e) :: rest, n => if m = n then some e else lookup rest n

/-- The child of an entry under a given name; paths below a regular file do
not exist (`os.path.exists(file/"x") = False`). -/
def Entry.child : Entry → String → Option Entry
  | .file _ _, _ => none
  | .dir _ es, n => lookup es n

/-- Replace the entry stored under a name (first occurrence), keeping its
position in the listing; models overwriting an existing path. -/
def updateEntry : List (String × Entry) → String → Entry → List (String × Entry)
  | [], _, _ => []
  | (m, e) :: rest, n, e2 => if m = n then (m, e2) :: rest else (m, e) :: updateEntry rest n e2

/-- Remove the entry stored under a name (first occurrence); models
`os.remove` / `shutil.rmtree`. -/
def eraseName : List (String × Entry) → String → List (String × Entry)
  | [], _ => []
  | (m, e) :: rest, n => if m = n then rest else (m, e) :: eraseName rest n

/-- The entry found by following a relative path (list of name components)
from a possibly-missing root; `[]` is the root itself. -/
def entryAt : Option Entry → List String → Option Entry
  | oe, [] => oe
  | some (.dir _ es), n :: p => entryAt (lookup es n) p
  | _, _ :: _ => none

/-- The content of the file strictly below the root at a relative path, if
that path is a regular file. -/
def fileAt (oe : Option Entry) (p : List String) : Option Content :=
  match p, entryAt oe p with
  | _ :: _, some (.file _ c) => some c
  | _, _ => none

/-- Python's byte-wise string comparison (`<=`), on code points. -/
def leChars : List Char → List Char → Bool
  | [], _ => true
  | _ :: _, [] => false
  | a :: as, b :: bs =>
    if a.val.toNat < b.val.toNat then true
    else if b.val.toNat < a.val.toNat then false
    else leChars as bs

/-- Lexicographic name comparison used by `.sort()` on names. -/
def leName (a b : String) : Bool := leChars a.data b.data

/-- Insert one name-keyed pair into an already sorted list. -/
def insPair {α : Type} (x : String × α) : List (String × α) → List (String × α)
  | [] => [x]
  | y :: ys => if leName x.1 y.1 then x :: y :: ys else y :: insPair x ys

/-- Sort name-keyed pairs by name (stable), modelling `list.sort()` on the
names returned by `os.listdir` / `os.walk`. -/
def sortPairs {α : Type} : List (String × α) → List (String × α)
  | [] => []
  | x :: xs => insPair x (sortPairs xs)

/-- One hex digit. -/
def hexChar : Nat → Char
  | 0 => '0' | 1 => '1' | 2 => '2' | 3 => '3' | 4 => '4'
  | 5 => '5' | 6 => '6' | 7 => '7' | 8 => '8' | 9 => '9'
  | 10 => 'a' | 11 => 'b' | 12 => 'c' | 13 => 'd' | 14 => 'e' | 15 => 'f'
  | _ => 'x'

/-- Two hex digits of one byte. -/
def hexByte (b : Nat) : List Char := [hexChar (b / 16 % 16), hexChar (b % 16)]

/-- Model of `calculate_md5` (`VeeamTask.py:55`): the md5 hex digest of a
file's bytes.  md5 is modelled as an idealised collision-free digest over the
absorbed byte stream, rendered with the same hex alphabet as the real digest;
reading in 4096-byte chunks is absorption-equivalent to hashing the whole
stream, so the chunking is not modelled. -/
def calculate_md5 : Content → List Char
  | [] => []
  | b :: rest => hexByte b ++ calculate_md5 rest

/-- Concatenate named byte streams in listing order. -/
def catStreams (l : List (String × List Char)) : List Char :=
  l.foldl (fun acc p => acc ++ p.2) []

/-- The file children of a listing, with their contents, in listing order. -/
def filesOf : List (String × Entry) → List (String × Content)
  | [] => []
  | (n, .file _ c) :: rest => (n, c) :: filesOf rest
  | (_, .dir _ _) :: rest => filesOf rest

mutual
/-- The byte stream absorbed by the folder hash of `calculate_folder_md5`
(`VeeamTask.py:77`) while `os.walk` visits this entry, where `pre` is the
relative path of this entry from the walk root (`""` at the root, otherwise
ending in `"/"`).  `os.walk` visits a directory by yielding its sorted file
names first (each file absorbs its relative path then its md5 hex digest) and
then descending into its subdirectories in sorted name order; walking a
regular-file path yields nothing.  Each subdirectory's stream depends only on
its own name, prefix and subtree, so collecting the streams in listing order
and sorting them by name (`subStreams`, then `catStreams` over `sortPairs`)
produces exactly the stream of the sorted descent. -/
def folderStream (pre : List Char) : Entry → List Char
  | .file _ _ => []
  | .dir _ es =>
    (sortPairs (filesOf es)).foldl
      (fun acc p => acc ++ pre ++ p.1.data ++ calculate_md5 p.2) []
      ++ catStreams (sortPairs (subStreams pre es))

/-- The named streams of the subdirectories of a listing (files contribute the
empty stream), in listing order. -/
def subStreams (pre : List Char) : List (String × Entry) → List (String × List Char)
  | [] => []
  | (n, e) :: rest => (n, folderStream (pre ++ n.data ++ ['/']) e) :: subStreams pre rest
end

/-- Model of `calculate_folder_md5` (`VeeamTask.py:77`): the folder digest of
a path, i.e. (idealised md5 of) the stream absorbed while walking it.
`os.walk` of a nonexistent path or of a regular file yields nothing, so those
digests equal the digest of an empty directory; no error is raised. -/
def calculate_folder_md5 : Option Entry → List Char
  | none => []
  | some e => folderStream [] e

/-- Flatten named walk-pair lists of subdirectories, prefixing each relative
path with the subdirectory name and `/` (`os.path.join`/`os.path.relpath`). -/
def catWalks (l : List (String × List (List Char × Content))) : List (List Char × Content) :=
  l.foldl (fun acc p => acc ++ p.2.map (fun q => (p.1.data ++ '/' :: q.1, q.2))) []

mutual
/-- The `(relative path, content)` pairs of the files under an entry, in the
order `os.walk` (with sorted `dirnames`/`filenames`) visits them: the files of
a directory in sorted name order first, then the contents of each
subdirectory, subdirectories in sorted name order, depth first. -/
def walkPairs : Entry → List (List Char × Content)
  | .file _ _ => []
  | .dir _ es =>
    (sortPairs (filesOf es)).map (fun p => (p.1.data, p.2)) ++
      catWalks (sortPairs (subWalks es))

/-- The named walk-pair lists of the subdirectories of a listing (files
contribute the empty list), in listing order. -/
def subWalks : List (String × Entry) → List (String × List (List Char × Content))
  | [] => []
  | (n, e) :: rest => (n, walkPairs e) :: subWalks rest
end

/-- Fold `(relative path, file digest)` records into one stream, in list
order — the digest a traversal order determines. -/
def streamOfPairs (l : List (List Char × Content)) : List Char :=
  l.foldl (fun acc q => acc ++ q.1 ++ calculate_md5 q.2) []

/-- Flatten the per-entry contributions of the spec's interleaved traversal:
a file entry contributes its own record, a directory entry the records of its
subtree, entries in one merged sorted order. -/
def catSpec (l : List (String × (Content ⊕ List (List Char × Content)))) :
    List (List Char × Content) :=
  l.foldl (fun acc p =>
    acc ++ match p.2 with
      | Sum.inl c => [(p.1.data, c)]
      | Sum.inr sub => sub.map (fun q => (p.1.data ++ '/' :: q.1, q.2))) []

mutual
/-- Modelled from the spec: the traversal order the specification describes
for `treeDigest` — at each level file names and directory names sorted, and
the traversal "descending into each subdirectory in sorted order before
continuing with later files of the same level", i.e. files and subdirectories
interleaved in one merged sorted order, depth first.  (The code itself walks
all files of a level before any subdirectory; this definition follows the
spec's words so the two orders can be compared.) -/
def specPairs : Entry → List (List Char × Content)
  | .file _ _ => []
  | .dir _ es => catSpec (sortPairs (specSubs es))

/-- The per-entry contributions of the spec's interleaved traversal, in
listing order. -/
def specSubs : List (String × Entry) → List (String × (Content ⊕ List (List Char × Content)))
  | [] => []
  | (n, .file _ c) :: rest => (n, Sum.inl c) :: specSubs rest
  | (n, e) :: rest => (n, Sum.inr (specPairs e)) :: specSubs rest
end

/-- The log events the program emits (`logging.info` lines), with the path
arguments of the corresponding format strings. -/
inductive Event : Type where
  | createdFolder (replicaPath : String)
  | noUpdates (replicaPath : String)
  | syncFolder (replicaPath : String)
  | copiedFile (item sourcePath replicaPath : String)
  | copiedLatest (item sourcePath replicaPath : String)
  | removedFolder (item replicaPath : String)
  | removedFile (item replicaPath : String)
deriving Repr, DecidableEq

/-- The OS errors the program can raise while synchronising. -/
inductive Err : Type where
  | fileNotFound (path : String)
  | isADirectory (path : String)
  | notADirectory (path : String)
deriving Repr, DecidableEq

/-- The outcome of one (sub)operation: the replica entry afterwards, the
events logged, and the first error raised (execution stops at the first
error, which propagates to `main`). -/
structure Out : Type where
  fs : Entry
  evs : List Event
  err : Option Err
deriving Repr

/-- The resolved replica entry at the start of `sync_folders`: the existing
entry, or the directory `os.makedirs` just created (mtime `now`, empty). -/
def repE (now : Nat) : Option Entry → Entry
  | none => .dir now []
  | some e => e

/-- The creation events of the start of `sync_folders`: one created-folder
event when the replica was just created. -/
def repEvs (rpath : String) : Option Entry → List Event
  | none => [Event.createdFolder rpath]
  | some _ => []

/-- One file item of the `copy_files` loop (`VeeamTask.py:116-124`), for a
source file `n` with mtime `smt` and content `sc`, against the current
replica directory: copy if the name does not exist in the replica, overwrite
only if the source is strictly newer and the md5 digests differ; copying a
new entry updates the replica directory's mtime, overwriting an existing path
does not.  If the replica is a regular file the copy raises
`NotADirectoryError`; if the replica has a directory under that name,
`calculate_md5` of it raises `IsADirectoryError` (only reached when the
source file is strictly newer). -/
def copy_step (now : Nat) (spath rpath : String) (n : String) (smt : Nat) (sc : Content)
    (rep : Entry) : Out :=
  let sp := spath ++ "/" ++ n
  let rp := rpath ++ "/" ++ n
  match rep with
  | .file fm fc => { fs := .file fm fc, evs := [], err := some (.notADirectory rp) }
  | .dir dmt des =>
    match lookup des n with
    | none =>
      { fs := .dir now (des ++ [(n, .file smt sc)]), evs := [.copiedFile n sp rp], err := none }
    | some (.file rmt rc) =>
      if rmt < smt then
        if calculate_md5 sc ≠ calculate_md5 rc then
          { fs := .dir dmt (updateEntry des n (.file smt sc)), evs := [.copiedLatest n sp rp],
            err := none }
        else { fs := .dir dmt des, evs := [], err := none }
      else { fs := .dir dmt des, evs := [], err := none }
    | some (.dir rmt _) =>
      if rmt < smt then { fs := .dir dmt des, evs := [], err := some (.isADirectory rp) }
      else { fs := .dir dmt des, evs := [], err := none }

/-- The loop body of `remove_files` (`VeeamTask.py:143-154`): iterate over the
snapshot `items` of the replica listing; every item whose name does not exist
in the source is removed from the current listing (whole subtree if a
directory) with one removed-folder/removed-file event.  Returns the final
listing and the events in iteration order. -/
def removeList (rpath : String) (s : Entry) :
    List (String × Entry) → List (String × Entry) → List (String × Entry) × List Event
  | [], cur => (cur, [])
  | (n, e) :: rest, cur =>
    if (s.child n).isSome then removeList rpath s rest cur
    else
      let ev : Event := match e with
        | .dir _ _ => .removedFolder n (rpath ++ "/" ++ n)
        | .file _ _ => .removedFile n (rpath ++ "/" ++ n)
      let r := removeList rpath s rest (eraseName cur n)
      (r.1, ev :: r.2)

/-- Model of `remove_files` (`VeeamTask.py:141`): prune one level of the
replica.  `os.listdir` of a regular file raises `NotADirectoryError`; removing
an entry updates the directory's mtime. -/
def remove_files (now : Nat) (rpath : String) (s rep : Entry) : Out :=
  match rep with
  | .file fm fc => { fs := .file fm fc, evs := [], err := some (.notADirectory rpath) }
  | .dir dmt des =>
    let r := removeList rpath s des des
    { fs := .dir (if r.2.isEmpty then dmt else now) r.1, evs := r.2, err := none }

mutual
/-- Model of `sync_folders` (`VeeamTask.py:175`) for an existing source entry:
create the replica directory if the path does not exist (mtime `now`), then if
the source's mtime is not strictly newer and the folder digests are equal,
log "no updates needed" and return; otherwise log "sync folder", run
`copy_files` (inlined here: `os.listdir` of a regular-file source raises
`NotADirectoryError`, a directory source runs the copy loop) and — only if it
raised no error — `remove_files`. -/
def sync_entry (now : Nat) (spath rpath : String) (s : Entry) (rep : Option Entry) : Out :=
  let rep1 : Entry := repE now rep
  let evs1 : List Event := repEvs rpath rep
  if s.mtime ≤ rep1.mtime ∧ calculate_folder_md5 (some s) = calculate_folder_md5 (some rep1) then
    { fs := rep1, evs := evs1 ++ [.noUpdates rpath], err := none }
  else
    let c : Out :=
      match s with
      | .file _ _ => { fs := rep1, evs := [], err := some (.notADirectory spath) }
      | .dir _ es => copyList now spath rpath es rep1
    match c.err with
    | some e => { fs := c.fs, evs := evs1 ++ [.syncFolder rpath] ++ c.evs, err := some e }
    | none =>
      let r := remove_files now rpath s c.fs
      { fs := r.fs, evs := evs1 ++ [.syncFolder rpath] ++ c.evs ++ r.evs, err := r.err }

/-- The loop of `copy_files` over the source items, threading the replica
state; a file item is handled by `copy_step`, a directory item recursively
invokes the synchroniser on `(source/item, replica/item)` (`os.makedirs`
below a regular-file replica raises `NotADirectoryError`; creating the child
directory updates the replica directory's mtime).  The loop stops at the
first error. -/
def copyList (now : Nat) (spath rpath : String) (items : List (String × Entry))
    (rep : Entry) : Out :=
  match items with
  | [] => { fs := rep, evs := [], err := none }
  | (n, se) :: rest =>
    let step : Out :=
      match se with
      | .file smt sc => copy_step now spath rpath n smt sc rep
      | .dir _ _ =>
        match rep with
        | .file fm fc =>
          { fs := .file fm fc, evs := [], err := some (.notADirectory (rpath ++ "/" ++ n)) }
        | .dir dmt des =>
          let r := sync_entry now (spath ++ "/" ++ n) (rpath ++ "/" ++ n) se (lookup des n)
          match lookup des n with
          | none => { fs := .dir now (des ++ [(n, r.fs)]), evs := r.evs, err := r.err }
          | some _ => { fs := .dir dmt (updateEntry des n r.fs), evs := r.evs, err := r.err }
    match step.err with
    | some _ => step
    | none =>
      let restOut := copyList now spath rpath rest step.fs
      { fs := restOut.fs, evs := step.evs ++ restOut.evs, err := restOut.err }
end

/-- Model of `copy_files` (`VeeamTask.py:110`): iterate over the source
listing (`os.listdir` of a regular file raises `NotADirectoryError`); this is
the dispatch `sync_entry` performs inline before its error check. -/
def copy_files (now : Nat) (spath rpath : String) (s : Entry) (rep : Entry) : Out :=
  match s with
  | .file _ _ => { fs := rep, evs := [], err := some (.notADirectory spath) }
  | .dir _ es => copyList now spath rpath es rep

/-- One iteration of the `copy_files` loop for the source item `(n, se)`
against the current replica state — the step `copyList` performs inline. -/
def copy_item (now : Nat) (spath rpath : String) (n : String) (se rep : Entry) : Out :=
  match se with
  | .file smt sc => copy_step now spath rpath n smt sc rep
  | .dir _ _ =>
    match rep with
    | .file fm fc =>
      { fs := .file fm fc, evs := [], err := some (.notADirectory (rpath ++ "/" ++ n)) }
    | .dir dmt des =>
      let r := sync_entry now (spath ++ "/" ++ n) (rpath ++ "/" ++ n) se (lookup des n)
      match lookup des n with
      | none => { fs := .dir now (des ++ [(n, r.fs)]), evs := r.evs, err := r.err }
      | some _ => { fs := .dir dmt (updateEntry des n r.fs), evs := r.evs, err := r.err }

/-- Model of one call `sync_folders(source, replica)` (`VeeamTask.py:175`)
where either path may not exist: the replica directory is created first if
missing (`os.makedirs`, mtime `now`), and then `os.path.getmtime(source)`
raises `FileNotFoundError` if the source path does not exist. -/
def sync_folders (now : Nat) (spath rpath : String) (src rep : Option Entry) : Out :=
  match src with
  | some s => sync_entry now spath rpath s rep
  | none =>
    { fs := repE now rep, evs := repEvs rpath rep, err := some (.fileNotFound spath) }

/-- Is this event one of the two copy events or two prune (removal) events? -/
def Event.isCopyOrRemove : Event → Bool
  | .copiedFile .. => true
  | .copiedLatest .. => true
  | .removedFolder .. => true
  | .removedFile .. => true
  | _ => false

/-- A valid file/directory name: nonempty and without the path separator. -/
def validName (n : String) : Bool := (!n.isEmpty) && n.data.all (fun c => c != '/')

/-- No duplicate names. -/
def noDupNames : List String → Bool
  | [] => true
  | n :: rest => (!rest.contains n) && noDupNames rest

mutual
/-- A well-formed filesystem entry: file contents are bytes (`< 256`),
listings have valid, pairwise-distinct names, and all children are
well-formed — the invariants a real on-disk tree satisfies. -/
def wf : Entry → Bool
  | .file _ c => c.all (fun b => b < 256)
  | .dir _ es => noDupNames (es.map Prod.fst) && wfList es

/-- All pairs of a listing have valid names and well-formed entries. -/
def wfList : List (String × Entry) → Bool
  | [] => true
  | (n, e) :: rest => validName n && wf e && wfList rest
end

/-- A well-formed possibly-missing entry. -/
def wfO : Option Entry → Bool
  | none => true
  | some e => wf e

mutual
/-- A tree with no files at any depth (only, possibly, nested empty
directories below a directory root). -/
def noFiles : Entry → Bool
  | .file _ _ => false
  | .dir _ es => noFilesList es

/-- All entries of a listing are file-free. -/
def noFilesList : List (String × Entry) → Bool
  | [] => true
  | (_, e) :: rest => noFiles e && noFilesList rest
end

mutual
/-- Size of an entry, for strong induction. -/
def esize : Entry → Nat
  | .file _ _ => 1
  | .dir _ es => 1 + lsize es

/-- Size of a listing. -/
def lsize : List (String × Entry) → Nat
  | [] => 0
  | (_, e) :: rest => 1 + esize e + lsize rest
end


/-- The per-path precondition of the amended convergence claim, for an entry
pair at one common relative path: either the source side is strictly newer
than the replica side, or both are files with identical content. -/
def goodPair (se re : Entry) : Prop :=
  re.mtime < se.mtime ∨ ∃ c smt rmt, se = .file smt c ∧ re = .file rmt c

/-- `goodPair` at every relative path present in both trees. -/
def goodFor (s : Entry) (rep : Option Entry) : Prop :=
  ∀ p se re, entryAt (some s) p = some se → entryAt rep p = some re → goodPair se re

/-- Convergence of one replica child against one source child: every file of
the source subtree (including the child itself) is present with the same
content, and everything present came from the source subtree. -/
def convPair (se : Entry) (oe : Option Entry) : Prop :=
  (∀ p mt c, entryAt (some se) p = some (.file mt c) →
    ∃ mt2, entryAt oe p = some (.file mt2 c)) ∧
  (∀ p, (entryAt oe p).isSome = true → (entryAt (some se) p).isSome = true)

/-- Convergence of one synchronised directory pair: every file strictly below
the source root is present in the result with identical content, and every
path present in the result exists in the source. -/
def syncConv (s fs : Entry) : Prop :=
  (∀ p mt c, p ≠ [] → entryAt (some s) p = some (.file mt c) →
    ∃ mt2, entryAt (some fs) p = some (.file mt2 c)) ∧
  (∀ p, p ≠ [] → (entryAt (some fs) p).isSome = true →
    (entryAt (some s) p).isSome = true)

mutual
/-- The state `sync_entry` leaves a replica entry in, relative to its source
entry, when it completes without error: a second pass over such a pair makes
no copy, no overwrite and no removal.  A file source is matched by any entry
at least as recent (or a file of digest-equal content); a directory source is
matched either by an entry satisfying the short-circuit check (mtime not
older, equal folder digests) or by a directory whose listing has no duplicate
names, covers every source item with a `synced` entry, and carries no name
absent from the source. -/
def synced : Entry → Entry → Bool
  | .file smt sc, .file rmt rc =>
    decide (smt ≤ rmt) || decide (calculate_md5 sc = calculate_md5 rc)
  | .file smt _, .dir rmt _ => decide (smt ≤ rmt)
  | .dir smt ses, re =>
    (decide (smt ≤ re.mtime) &&
      decide (calculate_folder_md5 (some (.dir smt ses)) =
        calculate_folder_md5 (some re)))
    ||
    (match re with
     | .file _ _ => false
     | .dir _ res =>
       syncedList ses res && noDupNames (res.map Prod.fst) &&
         res.all (fun p => (lookup ses p.1).isSome))

/-- Every item of a source listing has a `synced` entry of the same name in
the replica listing. -/
def syncedList : List (String × Entry) → List (String × Entry) → Bool
  | [], _ => true
  | (n, x) :: rest, res =>
    (match lookup res n with
     | none => false
     | some y => synced x y) && syncedList rest res
end

/-- No event of the list is a copy, overwrite or removal event. -/
def noCopyRemove (evs : List Event) : Bool :=
  evs.all (fun e => ! e.isCopyOrRemove)

/-! ### Basic facts about the name order and sorting -/

theorem leChars_refl (a : List Char) : leChars a a = true := by
  induction a with
  | nil => rfl
  | cons x xs ih => simp [leChars, ih]

theorem leName_refl (n : String) : leName n n = true := leChars_refl n.data

theorem leChars_total (a b : List Char) : leChars a b = true ∨ leChars b a = true := by
  induction a generalizing b with
  | nil => left; rfl
  | cons x xs ih =>
    cases b with
    | nil => right; rfl
    | cons y ys =>
      by_cases h1 : x.val.toNat < y.val.toNat
      · left; simp [leChars, h1]
      · by_cases h2 : y.val.toNat < x.val.toNat
        · right; simp [leChars, h1, h2]
        · rcases ih ys with h | h
          · left; simp [leChars, h1, h2, h]
          · right; simp [leChars, h1, h2, h]

theorem leName_total (a b : String) : leName a b = true ∨ leName b a = true :=
  leChars_total a.data b.data

theorem leChars_trans {a b c : List Char} (h1 : leChars a b = true)
    (h2 : leChars b c = true) : leChars a c = true := by
  induction a generalizing b c with
  | nil => rfl
  | cons x xs ih =>
    cases b with
    | nil => simp [leChars] at h1
    | cons y ys =>
      cases c with
      | nil => simp [leChars] at h2
      | cons z zs =>
        simp only [leChars] at h1 h2 ⊢
        by_cases hxy : x.val.toNat < y.val.toNat <;>
          by_cases hyz : y.val.toNat < z.val.toNat <;>
          by_cases hyx : y.val.toNat < x.val.toNat <;>
          by_cases hzy : z.val.toNat < y.val.toNat <;>
          simp_all <;>
          first
            | omega
            | (have hxz : x.val.toNat < z.val.toNat := by omega
               simp [hxz])
            | (have hxz : ¬ x.val.toNat < z.val.toNat := by omega
               have hzx : ¬ z.val.toNat < x.val.toNat := by omega
               simp [hxz, hzx]
               exact ⟨by omega, ih h1 h2⟩)

theorem leName_trans {a b c : String} (h1 : leName a b = true)
    (h2 : leName b c = true) : leName a c = true := leChars_trans h1 h2

theorem leChars_antisymm {a b : List Char} (h1 : leChars a b = true)
    (h2 : leChars b a = true) : a = b := by
  induction a generalizing b with
  | nil => cases b with
    | nil => rfl
    | cons y ys => simp [leChars] at h2
  | cons x xs ih =>
    cases b with
    | nil => simp [leChars] at h1
    | cons y ys =>
      simp only [leChars] at h1 h2
      by_cases hxy : x.val.toNat < y.val.toNat <;> by_cases hyx : y.val.toNat < x.val.toNat <;>
        simp_all
      · omega
      · have hx : x = y := Char.ext (UInt32.toNat.inj (by omega))
        exact ⟨hx, ih h1 h2⟩

theorem leName_antisymm {a b : String} (h1 : leName a b = true)
    (h2 : leName b a = true) : a = b := by
  cases a with
  | mk da =>
    cases b with
    | mk db => exact congrArg String.mk (leChars_antisymm h1 h2)

theorem mem_insPair {α : Type} {x y : String × α} {l : List (String × α)} :
    x ∈ insPair y l ↔ x = y ∨ x ∈ l := by
  induction l with
  | nil => simp [insPair]
  | cons z zs ih =>
    by_cases h : leName y.1 z.1 <;> simp [insPair, h, ih] <;> tauto

theorem insPair_perm {α : Type} (y : String × α) (l : List (String × α)) :
    (insPair y l).Perm (y :: l) := by
  induction l with
  | nil => simp [insPair]
  | cons z zs ih =>
    by_cases h : leName y.1 z.1
    · simp [insPair, h]
    · simp only [insPair, h]
      exact (ih.cons z).trans (List.Perm.swap y z zs)

theorem sortPairs_perm {α : Type} (l : List (String × α)) : (sortPairs l).Perm l := by
  induction l with
  | nil => simp [sortPairs]
  | cons x xs ih => exact (insPair_perm x (sortPairs xs)).trans (ih.cons x)

theorem mem_sortPairs {α : Type} {x : String × α} {l : List (String × α)} :
    x ∈ sortPairs l ↔ x ∈ l := (sortPairs_perm l).mem_iff

theorem insPair_sorted {α : Type} {l : List (String × α)} (y : String × α)
    (h : l.Pairwise (fun a b => leName a.1 b.1 = true)) :
    (insPair y l).Pairwise (fun a b => leName a.1 b.1 = true) := by
  induction l with
  | nil => simp [insPair]
  | cons z zs ih =>
    rcases List.pairwise_cons.mp h with ⟨hz, hzs⟩
    by_cases hle : leName y.1 z.1 = true
    · simp only [insPair, hle, if_true]
      refine List.pairwise_cons.mpr ⟨?_, h⟩
      intro b hb
      rcases List.mem_cons.mp hb with rfl | hb
      · exact hle
      · exact leName_trans hle (hz b hb)
    · simp only [insPair, hle, if_false]
      refine List.pairwise_cons.mpr ⟨?_, ih hzs⟩
      intro b hb
      rcases mem_insPair.mp hb with rfl | hb
      · rcases leName_total b.1 z.1 with h2 | h2
        · exact absurd h2 hle
        · exact h2
      · exact hz b hb

theorem sortPairs_sorted {α : Type} (l : List (String × α)) :
    (sortPairs l).Pairwise (fun a b => leName a.1 b.1 = true) := by
  induction l with
  | nil => simp [sortPairs]
  | cons x xs ih => exact insPair_sorted x ih

/-- Two sorted name-keyed lists that are permutations of each other and have
duplicate-free names are equal. -/
theorem sorted_perm_eq {α : Type} {l₁ l₂ : List (String × α)} (hp : l₁.Perm l₂)
    (hs₁ : l₁.Pairwise (fun a b => leName a.1 b.1 = true))
    (hs₂ : l₂.Pairwise (fun a b => leName a.1 b.1 = true))
    (hn : (l₁.map Prod.fst).Nodup) : l₁ = l₂ := by
  induction l₁ generalizing l₂ with
  | nil => exact List.Perm.nil_eq hp
  | cons a t₁ ih =>
    cases l₂ with
    | nil => exact absurd hp.symm (by simp)
    | cons b t₂ =>
      rcases List.pairwise_cons.mp hs₁ with ⟨ha, hst₁⟩
      rcases List.pairwise_cons.mp hs₂ with ⟨hb, hst₂⟩
      have hab : a = b := by
        have hbmem : b ∈ a :: t₁ := hp.mem_iff.mpr (List.mem_cons_self b t₂)
        have hamem : a ∈ b :: t₂ := hp.mem_iff.mp (List.mem_cons_self a t₁)
        rcases List.mem_cons.mp hbmem with rfl | hbt
        · rfl
        · rcases List.mem_cons.mp hamem with rfl | hat
          · rfl
          · have h1 : leName a.1 b.1 = true := ha b hbt
            have h2 : leName b.1 a.1 = true := hb a hat
            have hfst : a.1 = b.1 := leName_antisymm h1 h2
            exfalso
            rcases List.nodup_cons.mp hn with ⟨hnm, _⟩
            exact hnm (hfst ▸ List.mem_map_of_mem Prod.fst hbt)
      subst hab
      have ht : t₁.Perm t₂ := hp.cons_inv
      exact congrArg (a :: ·) (ih ht hst₁ hst₂ (List.nodup_cons.mp hn).2)

/-- Sorting commutes with rewriting the payloads (any function that keeps the
name). -/
theorem insPair_map {α β : Type} (f : String × α → String × β)
    (hf : ∀ p, (f p).1 = p.1) (x : String × α) (l : List (String × α)) :
    insPair (f x) (l.map f) = (insPair x l).map f := by
  induction l with
  | nil => simp [insPair]
  | cons z zs ih =>
    by_cases h : leName x.1 z.1 = true
    · simp [insPair, hf, h]
    · simp [insPair, hf, h, ih]

theorem sortPairs_map {α β : Type} (f : String × α → String × β)
    (hf : ∀ p, (f p).1 = p.1) (l : List (String × α)) :
    sortPairs (l.map f) = (sortPairs l).map f := by
  induction l with
  | nil => simp [sortPairs]
  | cons x xs ih => simp only [List.map_cons, sortPairs, ih, insPair_map f hf]

theorem noDupNames_iff (l : List String) : noDupNames l = true ↔ l.Nodup := by
  induction l with
  | nil => simp [noDupNames]
  | cons n rest ih => simp [noDupNames, ih]

/-! ### Facts about `lookup`, `updateEntry`, `eraseName` -/

theorem lookup_mem {es : List (String × Entry)} {n : String} {e : Entry}
    (h : lookup es n = some e) : (n, e) ∈ es := by
  induction es with
  | nil => simp [lookup] at h
  | cons p rest ih =>
    obtain ⟨m, x⟩ := p
    by_cases hm : m = n
    · subst hm
      simp [lookup] at h
      simp [h]
    · simp [lookup, hm] at h
      exact List.mem_cons_of_mem _ (ih h)

theorem lookup_isSome_iff {es : List (String × Entry)} {n : String} :
    (lookup es n).isSome = true ↔ n ∈ es.map Prod.fst := by
  induction es with
  | nil => simp [lookup]
  | cons p rest ih =>
    obtain ⟨m, x⟩ := p
    by_cases hm : m = n
    · subst hm; simp [lookup]
    · simp [lookup, hm, ih, Ne.symm hm]

theorem lookup_eq_none_iff {es : List (String × Entry)} {n : String} :
    lookup es n = none ↔ n ∉ es.map Prod.fst := by
  rw [← lookup_isSome_iff]
  cases lookup es n <;> simp

theorem mem_lookup_of_nodup {es : List (String × Entry)} {n : String} {e : Entry}
    (hn : (es.map Prod.fst).Nodup) (h : (n, e) ∈ es) : lookup es n = some e := by
  induction es with
  | nil => simp at h
  | cons p rest ih =>
    obtain ⟨m, x⟩ := p
    rcases List.mem_cons.mp h with heq | hmem
    · cases heq
      simp [lookup]
    · have hm : m ≠ n := by
        intro hmn
        apply (List.nodup_cons.mp hn).1
        rw [hmn]
        exact List.mem_map.mpr ⟨(n, e), hmem, rfl⟩
      simp [lookup, hm]
      exact ih (List.nodup_cons.mp hn).2 hmem

theorem lookup_append_some {es l : List (String × Entry)} {n : String} {e : Entry}
    (h : lookup es n = some e) : lookup (es ++ l) n = some e := by
  induction es with
  | nil => simp [lookup] at h
  | cons p rest ih =>
    obtain ⟨m, x⟩ := p
    by_cases hm : m = n <;> simp [lookup, hm] at h ⊢ <;> simp_all [ih]

theorem lookup_append_none {es l : List (String × Entry)} {n : String}
    (h : lookup es n = none) : lookup (es ++ l) n = lookup l n := by
  induction es with
  | nil => simp [lookup]
  | cons p rest ih =>
    obtain ⟨m, x⟩ := p
    by_cases hm : m = n <;> simp [lookup, hm] at h ⊢ <;> simp_all [ih]

theorem lookup_updateEntry_self {des : List (String × Entry)} {n : String} {x e2 : Entry}
    (h : lookup des n = some x) : lookup (updateEntry des n e2) n = some e2 := by
  induction des with
  | nil => simp [lookup] at h
  | cons p rest ih =>
    obtain ⟨m, y⟩ := p
    by_cases hm : m = n
    · subst hm; simp [lookup, updateEntry]
    · simp [lookup, updateEntry, hm] at h ⊢
      exact ih h

theorem lookup_updateEntry_ne {des : List (String × Entry)} {n m : String} {e2 : Entry}
    (h : m ≠ n) : lookup (updateEntry des n e2) m = lookup des m := by
  induction des with
  | nil => simp [updateEntry]
  | cons p rest ih =>
    obtain ⟨k, y⟩ := p
    by_cases hk : k = n
    · subst hk
      simp [updateEntry, lookup, Ne.symm h]
    · by_cases hk2 : k = m <;> simp [updateEntry, lookup, hk, hk2, h, ih]

theorem map_fst_updateEntry (des : List (String × Entry)) (n : String) (e2 : Entry) :
    (updateEntry des n e2).map Prod.fst = des.map Prod.fst := by
  induction des with
  | nil => simp [updateEntry]
  | cons p rest ih =>
    obtain ⟨k, y⟩ := p
    by_cases hk : k = n <;> simp [updateEntry, hk, ih]

theorem lookup_eraseName_ne {des : List (String × Entry)} {n m : String}
    (h : m ≠ n) : lookup (eraseName des n) m = lookup des m := by
  induction des with
  | nil => simp [eraseName]
  | cons p rest ih =>
    obtain ⟨k, y⟩ := p
    by_cases hk : k = n
    · subst hk
      simp [eraseName, lookup, Ne.symm h]
    · by_cases hk2 : k = m <;> simp [eraseName, lookup, hk, hk2, h, ih]

theorem eraseName_cons_ne {des : List (String × Entry)} {n : String} (p : String × Entry)
    (h : p.1 ≠ n) : eraseName (p :: des) n = p :: eraseName des n := by
  obtain ⟨k, y⟩ := p
  simp only at h
  simp [eraseName, h]

/-! ### Facts about the digest streams -/

theorem streamOfPairs_acc (l : List (List Char × Content)) (a : List Char) :
    l.foldl (fun acc q => acc ++ q.1 ++ calculate_md5 q.2) a = a ++ streamOfPairs l := by
  induction l generalizing a with
  | nil => simp [streamOfPairs]
  | cons q rest ih =>
    simp only [streamOfPairs, List.foldl_cons] at ih ⊢
    rw [ih, ih (([] : List Char) ++ q.1 ++ calculate_md5 q.2)]
    simp

theorem streamOfPairs_cons (q : List Char × Content) (l : List (List Char × Content)) :
    streamOfPairs (q :: l) = q.1 ++ calculate_md5 q.2 ++ streamOfPairs l := by
  simp only [streamOfPairs, List.foldl_cons]
  rw [streamOfPairs_acc]
  simp [streamOfPairs]

theorem streamOfPairs_append (l₁ l₂ : List (List Char × Content)) :
    streamOfPairs (l₁ ++ l₂) = streamOfPairs l₁ ++ streamOfPairs l₂ := by
  induction l₁ with
  | nil => simp [streamOfPairs]
  | cons q rest ih => simp [streamOfPairs_cons, ih]

theorem catStreams_cons (p : String × List Char) (l : List (String × List Char)) :
    catStreams (p :: l) = p.2 ++ catStreams l := by
  have acc : ∀ (l' : List (String × List Char)) (a : List Char),
      l'.foldl (fun acc p => acc ++ p.2) a = a ++ catStreams l' := by
    intro l'
    induction l' with
    | nil => intro a; simp [catStreams]
    | cons q rest ih =>
      intro a
      simp only [catStreams, List.foldl_cons] at ih ⊢
      rw [ih, ih (([] : List Char) ++ q.2)]
      simp
  simp only [catStreams, List.foldl_cons]
  rw [acc]
  simp [catStreams]

theorem catWalks_cons (p : String × List (List Char × Content))
    (l : List (String × List (List Char × Content))) :
    catWalks (p :: l) = p.2.map (fun q => (p.1.data ++ '/' :: q.1, q.2)) ++ catWalks l := by
  have acc : ∀ (l' : List (String × List (List Char × Content)))
      (a : List (List Char × Content)),
      l'.foldl (fun acc p => acc ++ p.2.map (fun q => (p.1.data ++ '/' :: q.1, q.2))) a =
        a ++ catWalks l' := by
    intro l'
    induction l' with
    | nil => intro a; simp [catWalks]
    | cons q rest ih =>
      intro a
      simp only [catWalks, List.foldl_cons] at ih ⊢
      rw [ih, ih (([] : List (List Char × Content)) ++ _)]
      simp
  simp only [catWalks, List.foldl_cons]
  rw [acc]
  simp [catWalks]

theorem filesPart_eq (pre : List Char) (l : List (String × Content)) :
    l.foldl (fun acc p => acc ++ pre ++ p.1.data ++ calculate_md5 p.2) [] =
      streamOfPairs (l.map (fun p => (pre ++ p.1.data, p.2))) := by
  have acc : ∀ (l' : List (String × Content)) (a : List Char),
      l'.foldl (fun acc p => acc ++ pre ++ p.1.data ++ calculate_md5 p.2) a =
        a ++ streamOfPairs (l'.map (fun p => (pre ++ p.1.data, p.2))) := by
    intro l'
    induction l' with
    | nil => intro a; simp [streamOfPairs]
    | cons q rest ih =>
      intro a
      simp only [List.foldl_cons, List.map_cons]
      rw [ih, streamOfPairs_cons]
      simp
  rw [acc]
  simp

/-- The stream `calculate_folder_md5` absorbs below prefix `pre` is the fold
of the `(relative path, file digest)` records in walk order. -/
theorem folderStream_eq_stream : ∀ (e : Entry) (pre : List Char),
    folderStream pre e = streamOfPairs ((walkPairs e).map (fun q => (pre ++ q.1, q.2))) := by
  apply walkPairs.induct
    (fun e => ∀ pre, folderStream pre e =
      streamOfPairs ((walkPairs e).map (fun q => (pre ++ q.1, q.2))))
    (fun es => ∀ pre, subStreams pre es = (subWalks es).map
      (fun p => (p.1, streamOfPairs ((p.2).map
        (fun q => (pre ++ p.1.data ++ '/' :: q.1, q.2))))))
  · intro mt c pre
    simp [folderStream, walkPairs, streamOfPairs]
  · intro mt es ih pre
    rw [folderStream, walkPairs]
    rw [List.map_append, streamOfPairs_append]
    congr 1
    · rw [filesPart_eq]
      congr 1
      rw [List.map_map]
      rfl
    · rw [ih pre]
      rw [sortPairs_map (fun (p : String × List (List Char × Content)) =>
            (p.1, streamOfPairs ((p.2).map
              (fun q => (pre ++ p.1.data ++ '/' :: q.1, q.2))))) (fun p => rfl)]
      generalize sortPairs (subWalks es) = L
      induction L with
      | nil => simp [catStreams, catWalks, streamOfPairs]
      | cons p rest ihl =>
        rw [List.map_cons, catStreams_cons, catWalks_cons, List.map_append,
          streamOfPairs_append, ihl]
        congr 1
        rw [List.map_map]
        simp [Function.comp_def, List.append_assoc]
  · intro pre
    simp [subStreams, subWalks]
  · intro n e rest ih1 ih2 pre
    rw [subStreams, subWalks, List.map_cons, ih2 pre, ih1 (pre ++ n.data ++ ['/'])]
    simp [List.append_assoc]

/-- `calculate_folder_md5` of an existing entry is the fold of the walk-order
records. -/
theorem calculate_folder_md5_eq_stream (e : Entry) :
    calculate_folder_md5 (some e) = streamOfPairs (walkPairs e) := by
  rw [calculate_folder_md5, folderStream_eq_stream e []]
  congr 1
  apply List.map_id''
  intro q
  simp

/-! ### Fileless trees and their digests -/

theorem catStreams_nil {l : List (String × List Char)} (h : ∀ p ∈ l, p.2 = []) :
    catStreams l = [] := by
  induction l with
  | nil => rfl
  | cons p rest ih =>
    rw [catStreams_cons, h p (List.mem_cons_self p rest), ih]
    · rfl
    · intro q hq
      exact h q (List.mem_cons_of_mem p hq)

theorem filesOf_of_noFilesList {es : List (String × Entry)} (h : noFilesList es = true) :
    filesOf es = [] := by
  induction es with
  | nil => rfl
  | cons p rest ih =>
    obtain ⟨n, e⟩ := p
    cases e with
    | file mt c => simp [noFilesList, noFiles] at h
    | dir mt sub =>
      simp only [noFilesList, Bool.and_eq_true] at h
      simp [filesOf, ih h.2]

theorem noFiles_folderStream : ∀ (e : Entry), noFiles e = true →
    ∀ pre, folderStream pre e = [] := by
  apply noFiles.induct (fun e => noFiles e = true → ∀ pre, folderStream pre e = [])
    (fun es => noFilesList es = true →
      ∀ pre, ∀ p ∈ subStreams pre es, p.2 = [])
  · intro mt c h
    simp [noFiles] at h
  · intro mt es ih h pre
    rw [noFiles] at h
    rw [folderStream, filesOf_of_noFilesList h]
    rw [catStreams_nil]
    · simp [sortPairs]
    · intro p hp
      exact ih h pre p (mem_sortPairs.mp hp)
  · intro _ pre p hp
    simp [subStreams] at hp
  · intro n e rest ih1 ih2 h pre p hp
    simp only [noFilesList, Bool.and_eq_true] at h
    rcases List.mem_cons.mp hp with rfl | hp
    · exact ih1 h.1 _
    · exact ih2 h.2 pre p hp

/-! ### Characterisation of `remove_files` -/

theorem removeList_snd (rp : String) (s : Entry) :
    ∀ (items cur : List (String × Entry)),
    (removeList rp s items cur).2 = items.filterMap (fun p =>
      if (s.child p.1).isSome then none
      else some (match p.2 with
        | .dir _ _ => Event.removedFolder p.1 (rp ++ "/" ++ p.1)
        | .file _ _ => Event.removedFile p.1 (rp ++ "/" ++ p.1))) := by
  intro items
  induction items with
  | nil => intro cur; rfl
  | cons p rest ih =>
    intro cur
    obtain ⟨n, e⟩ := p
    by_cases h : (s.child n).isSome = true
    · simp [removeList, h, List.filterMap_cons, ih]
    · cases e <;> simp [removeList, h, List.filterMap_cons, ih]

theorem removeList_fst (rp : String) (s : Entry) :
    ∀ (items cur : List (String × Entry)),
    (removeList rp s items cur).1 = items.foldl (fun c p =>
      if (s.child p.1).isSome then c else eraseName c p.1) cur := by
  intro items
  induction items with
  | nil => intro cur; rfl
  | cons p rest ih =>
    intro cur
    obtain ⟨n, e⟩ := p
    by_cases h : (s.child n).isSome = true
    · simp [removeList, h, ih]
    · cases e <;> simp [removeList, h, ih]

theorem foldl_erase_cons (keep : String × Entry → Bool) :
    ∀ (items : List (String × Entry)) (c : List (String × Entry)) (d : String × Entry),
    (∀ p ∈ items, p.1 ≠ d.1) →
    items.foldl (fun c p => if keep p then c else eraseName c p.1) (d :: c) =
      d :: items.foldl (fun c p => if keep p then c else eraseName c p.1) c := by
  intro items
  induction items with
  | nil => intro c d _; rfl
  | cons q rest ih =>
    intro c d hne
    have hq : q.1 ≠ d.1 := hne q (List.mem_cons_self q rest)
    have hrest : ∀ p ∈ rest, p.1 ≠ d.1 := fun p hp => hne p (List.mem_cons_of_mem q hp)
    by_cases h : keep q = true
    · simp only [List.foldl_cons, h, if_true]
      exact ih c d hrest
    · simp only [List.foldl_cons, h, if_false]
      rw [eraseName_cons_ne d (fun hh => hq hh.symm)]
      exact ih _ d hrest

theorem foldl_erase_filter (keep : String × Entry → Bool) :
    ∀ (des : List (String × Entry)), (des.map Prod.fst).Nodup →
    des.foldl (fun c p => if keep p then c else eraseName c p.1) des = des.filter keep := by
  intro des
  induction des with
  | nil => intro _; rfl
  | cons d rest ih =>
    intro hn
    have hd : ∀ p ∈ rest, p.1 ≠ d.1 := by
      intro p hp hpd
      exact (List.nodup_cons.mp hn).1 (hpd ▸ List.mem_map.mpr ⟨p, hp, rfl⟩)
    by_cases h : keep d = true
    · simp only [List.foldl_cons, h, if_true, List.filter_cons, if_pos]
      rw [foldl_erase_cons keep rest rest d hd, ih (List.nodup_cons.mp hn).2]
    · have h2 : keep d = false := by simpa using h
      have herase : eraseName (d :: rest) d.1 = rest := by
        obtain ⟨k, y⟩ := d
        simp [eraseName]
      simp only [List.foldl_cons, List.filter_cons, h2, Bool.false_eq_true, if_false]
      rw [herase]
      exact ih (List.nodup_cons.mp hn).2

theorem filterMap_isEmpty_iff_all (s : Entry) (rp : String)
    (des : List (String × Entry)) :
    (des.filterMap (fun p =>
      if (s.child p.1).isSome then none
      else some (match p.2 with
        | .dir _ _ => Event.removedFolder p.1 (rp ++ "/" ++ p.1)
        | .file _ _ => Event.removedFile p.1 (rp ++ "/" ++ p.1)))).isEmpty =
      des.all (fun p => (s.child p.1).isSome) := by
  induction des with
  | nil => rfl
  | cons p rest ih =>
    by_cases h : (s.child p.1).isSome = true
    · simp [List.filterMap_cons, h, ih]
    · simp [List.filterMap_cons, h]

/-! ### The copy loop in terms of `copy_item` -/

theorem copyList_cons (now : Nat) (sp rp : String) (n : String) (se : Entry)
    (rest : List (String × Entry)) (rep : Entry) :
    copyList now sp rp ((n, se) :: rest) rep =
      match (copy_item now sp rp n se rep).err with
      | some _ => copy_item now sp rp n se rep
      | none =>
        { fs := (copyList now sp rp rest (copy_item now sp rp n se rep).fs).fs,
          evs := (copy_item now sp rp n se rep).evs ++
            (copyList now sp rp rest (copy_item now sp rp n se rep).fs).evs,
          err := (copyList now sp rp rest (copy_item now sp rp n se rep).fs).err } := by
  cases se <;> rfl

theorem lookup_updateEntry_isSome (des : List (String × Entry)) (n m : String) (e2 : Entry) :
    (lookup (updateEntry des n e2) m).isSome = (lookup des m).isSome := by
  by_cases h : m = n
  · subst h
    cases hl : lookup des m with
    | none =>
      rw [lookup_eq_none_iff] at hl
      have h2 : lookup (updateEntry des m e2) m = none := by
        rw [lookup_eq_none_iff, map_fst_updateEntry]
        exact hl
      have h3 : lookup des m = none := lookup_eq_none_iff.mpr hl
      simp [h2, h3]
    | some x => simp [lookup_updateEntry_self hl, hl]
  · rw [lookup_updateEntry_ne h]

/-- The copy step never deletes an existing replica child. -/
theorem copy_item_child_mono (now : Nat) (sp rp : String) (n : String) (se rep : Entry)
    (m : String) (h : (rep.child m).isSome = true) :
    (((copy_item now sp rp n se rep).fs).child m).isSome = true := by
  cases se with
  | file smt sc =>
    cases rep with
    | file fm fc => simpa [copy_item, copy_step] using h
    | dir dmt des =>
      simp only [copy_item, copy_step]
      cases hl : lookup des n with
      | none =>
        simp only [Entry.child] at h ⊢
        cases hn : lookup des m with
        | none => simp [hn] at h
        | some x => simp [lookup_append_some hn]
      | some re =>
        cases re with
        | file rmt rc =>
          simp only [Entry.child] at h
          by_cases hmd : calculate_md5 sc ≠ calculate_md5 rc <;>
            by_cases hmt : rmt < smt <;>
            simp [hmt, hmd, Entry.child, lookup_updateEntry_isSome, h]
        | dir rmt rsub =>
          simp only [Entry.child] at h
          by_cases hmt : rmt < smt <;> simp [hmt, Entry.child, h]
  | dir smt ses =>
    cases rep with
    | file fm fc => simpa [copy_item] using h
    | dir dmt des =>
      simp only [copy_item]
      cases hl : lookup des n with
      | none =>
        simp only [Entry.child] at h ⊢
        cases hn : lookup des m with
        | none => simp [hn] at h
        | some x => simp [lookup_append_some hn]
      | some re =>
        simp only [Entry.child] at h ⊢
        rw [lookup_updateEntry_isSome]
        exact h

/-- The copy loop never deletes an existing replica child. -/
theorem copyList_child_mono (now : Nat) (sp rp : String) :
    ∀ (items : List (String × Entry)) (rep : Entry) (m : String),
    (rep.child m).isSome = true →
    (((copyList now sp rp items rep).fs).child m).isSome = true := by
  intro items
  induction items with
  | nil => intro rep m h; simpa [copyList] using h
  | cons p rest ih =>
    intro rep m h
    obtain ⟨n, se⟩ := p
    rw [copyList_cons]
    have hstep := copy_item_child_mono now sp rp n se rep m h
    cases herr : (copy_item now sp rp n se rep).err with
    | some e => exact hstep
    | none => exact ih _ m hstep

/-! ### Claims C3, C5, C7, C8, C9, C10 -/

/-- **C9** — `sync(source, replica)` with a nonexistent source and nonexistent
replica raises the not-found error only after `os.makedirs` has already
created the replica directory: the call returns the created (empty, mtime
`now`) replica directory together with the `FileNotFoundError`, so the error
path is not atomic. -/
theorem c9_missing_source_not_atomic (now : Nat) (sp rp : String) :
    sync_folders now sp rp none none =
      { fs := .dir now [], evs := [.createdFolder rp], err := some (.fileNotFound sp) } := rfl

/-- **C5** — when the replica exists, the source's mtime is not strictly newer
than the replica's, and the two folder digests are equal, `sync` emits exactly
the "no updates needed" event and returns with the replica tree unchanged: no
copy, overwrite or delete happens and no error is raised. -/
theorem c5_short_circuit (now : Nat) (sp rp : String) (s r : Entry)
    (hmt : s.mtime ≤ r.mtime)
    (hdg : calculate_folder_md5 (some s) = calculate_folder_md5 (some r)) :
    sync_folders now sp rp (some s) (some r) =
      { fs := r, evs := [.noUpdates rp], err := none } := by
  rw [sync_folders, sync_entry.eq_def]
  simp [repE, repEvs, hmt, hdg]

theorem c5_short_circuit_witness :
    sync_folders 7 "src" "rep" (some (.dir 0 [("a", .file 0 [1])]))
        (some (.dir 3 [("a", .file 2 [1])])) =
      { fs := .dir 3 [("a", .file 2 [1])], evs := [.noUpdates "rep"], err := none } :=
  c5_short_circuit 7 "src" "rep" (.dir 0 [("a", .file 0 [1])]) (.dir 3 [("a", .file 2 [1])])
    (by decide) (by decide)

/-- **C3** — for a file item present in both trees whose source mtime is
strictly newer but whose content digests are equal, the copy step leaves the
replica unchanged and emits no event (and raises no error): a touch-only
change is not copied. -/
theorem c3_touch_only_not_copied (now : Nat) (sp rp : String) (n : String)
    (smt rmt dmt : Nat) (sc rc : Content) (des : List (String × Entry))
    (hl : lookup des n = some (.file rmt rc))
    (hmt : rmt < smt)
    (hmd : calculate_md5 sc = calculate_md5 rc) :
    copy_step now sp rp n smt sc (.dir dmt des) =
      { fs := .dir dmt des, evs := [], err := none } := by
  simp [copy_step, hl, hmt, hmd]

theorem c3_touch_only_not_copied_witness :
    copy_step 9 "src" "rep" "a" 8 [5] (.dir 2 [("a", .file 3 [5])]) =
      { fs := .dir 2 [("a", .file 3 [5])], evs := [], err := none } :=
  c3_touch_only_not_copied 9 "src" "rep" "a" 8 3 2 [5] [5] [("a", .file 3 [5])]
    (by rfl) (by decide) (by rfl)

/-- **C7**, counterexample — the digest is *not* the fold of the
`(relative path, file digest)` records in the spec's interleaved order
(subdirectories visited in sorted order before later files of the same
level): on a tree with a subdirectory `a` (containing file `f`) and a file
`z`, the program's `os.walk` folds `z` before `a/f`, while the claimed order
folds `a/f` before `z`, and the two digests differ. -/
theorem c7_interleaved_order_counterexample :
    calculate_folder_md5
        (some (.dir 0 [("a", .dir 0 [("f", .file 0 [1])]), ("z", .file 0 [2])])) ≠
      streamOfPairs
        (specPairs (.dir 0 [("a", .dir 0 [("f", .file 0 [1])]), ("z", .file 0 [2])])) := by
  decide

/-- **C7**, amended — `calculate_folder_md5` folds the
`(relative path, file digest)` records in `os.walk` order with per-level
sorting: at each directory all of its files in sorted name order first, then
the contents of each subdirectory, subdirectories in sorted name order, depth
first (`walkPairs`); the digest is determined by exactly this traversal
order. -/
theorem c7_walk_order_amended (e : Entry) :
    calculate_folder_md5 (some e) = streamOfPairs (walkPairs e) :=
  calculate_folder_md5_eq_stream e

/-- **C10** — `calculate_folder_md5` raises no error on a nonexistent path and
returns the digest of the empty input for it; that digest coincides with the
digest of an empty directory and with the digest of any tree containing no
files at any depth. -/
theorem c10_missing_empty_fileless_digests (mt : Nat) (t : Entry)
    (h : noFiles t = true) :
    calculate_folder_md5 none = [] ∧
    calculate_folder_md5 (some (.dir mt [])) = calculate_folder_md5 none ∧
    calculate_folder_md5 (some t) = calculate_folder_md5 none := by
  refine ⟨rfl, by simp [calculate_folder_md5, folderStream, filesOf, subStreams,
    sortPairs, catStreams], ?_⟩
  simp [calculate_folder_md5, noFiles_folderStream t h []]

theorem c10_missing_empty_fileless_digests_witness :
    calculate_folder_md5 none = [] ∧
    calculate_folder_md5 (some (.dir 4 [])) = calculate_folder_md5 none ∧
    calculate_folder_md5 (some (.dir 0 [("d", .dir 1 []), ("e", .dir 2 [("f", .dir 3 [])])])) =
      calculate_folder_md5 none :=
  c10_missing_empty_fileless_digests 4
    (.dir 0 [("d", .dir 1 []), ("e", .dir 2 [("f", .dir 3 [])])]) (by decide)

/-- **C8** — `remove_files` on a replica directory deletes exactly the
top-level entries whose name does not exist in the source (whatever their
kind): each deleted entry goes with one removed-folder (for a directory —
the whole subtree is dropped with it) or removed-file event, surviving
entries are kept entirely unchanged (the pruner never descends into them),
and no error is raised. -/
theorem remove_files_filter (now : Nat) (rp : String) (s : Entry)
    (dmt : Nat) (des : List (String × Entry))
    (hn : noDupNames (des.map Prod.fst) = true) :
    remove_files now rp s (.dir dmt des) =
      { fs := .dir (if des.all (fun p => (s.child p.1).isSome) then dmt else now)
                   (des.filter (fun p => (s.child p.1).isSome)),
        evs := des.filterMap (fun p =>
          if (s.child p.1).isSome then none
          else some (match p.2 with
            | .dir _ _ => Event.removedFolder p.1 (rp ++ "/" ++ p.1)
            | .file _ _ => Event.removedFile p.1 (rp ++ "/" ++ p.1))),
        err := none } := by
  rw [remove_files]
  rw [removeList_snd rp s des des, removeList_fst rp s des des]
  rw [foldl_erase_filter (fun p => (s.child p.1).isSome) des ((noDupNames_iff _).mp hn)]
  rw [filterMap_isEmpty_iff_all]

theorem c8_prune_characterisation (now : Nat) (rp : String) (s : Entry)
    (dmt : Nat) (des : List (String × Entry))
    (hn : noDupNames (des.map Prod.fst) = true) :
    remove_files now rp s (.dir dmt des) =
      { fs := .dir (if des.all (fun p => (s.child p.1).isSome) then dmt else now)
                   (des.filter (fun p => (s.child p.1).isSome)),
        evs := des.filterMap (fun p =>
          if (s.child p.1).isSome then none
          else some (match p.2 with
            | .dir _ _ => Event.removedFolder p.1 (rp ++ "/" ++ p.1)
            | .file _ _ => Event.removedFile p.1 (rp ++ "/" ++ p.1))),
        err := none } :=
  remove_files_filter now rp s dmt des hn

theorem c8_prune_characterisation_witness :
    remove_files 9 "rep" (.dir 0 [("keep", .file 0 [1])]) (.dir 2
        [("keep", .file 5 [7]), ("gone", .dir 3 [("x", .file 1 [2])]), ("old", .file 4 [9])]) =
      { fs := .dir 9 [("keep", .file 5 [7])],
        evs := [Event.removedFolder "gone" "rep/gone", Event.removedFile "old" "rep/old"],
        err := none } := by
  have h := c8_prune_characterisation 9 "rep" (.dir 0 [("keep", .file 0 [1])]) 2
    [("keep", .file 5 [7]), ("gone", .dir 3 [("x", .file 1 [2])]), ("old", .file 4 [9])]
    (by decide)
  rw [h]
  rfl

/-- **C4** — within one `sync` pass on an existing replica that does not
short-circuit, `copy_files` runs first, and if it raises an error the error
propagates as the result of `sync` before `remove_files` ever runs: the
events are exactly the sync-begin event followed by the copy events (no
removal events of this level), the replica state is the copy phase's state,
and every replica entry of this level that existed before the copy phase
still exists — nothing at this level is deleted in the same pass as a failed
copy. -/
theorem c4_copy_error_blocks_prune (now : Nat) (sp rp : String) (s r : Entry) (e : Err)
    (hsc : ¬(s.mtime ≤ r.mtime ∧
      calculate_folder_md5 (some s) = calculate_folder_md5 (some r)))
    (herr : (copy_files now sp rp s r).err = some e) :
    sync_folders now sp rp (some s) (some r) =
      { fs := (copy_files now sp rp s r).fs,
        evs := Event.syncFolder rp :: (copy_files now sp rp s r).evs,
        err := some e } ∧
    ∀ n, ((r.child n).isSome = true) →
      (((copy_files now sp rp s r).fs).child n).isSome = true := by
  constructor
  · rw [sync_folders, sync_entry.eq_def]
    simp only [repE, repEvs]
    rw [if_neg hsc]
    cases s with
    | file smt sc =>
      simp only [copy_files] at herr ⊢
      cases herr
      rfl
    | dir smt es =>
      simp only [copy_files] at herr ⊢
      rw [herr]
      simp
  · intro n h
    cases s with
    | file smt sc => simpa [copy_files] using h
    | dir smt es =>
      simp only [copy_files]
      exact copyList_child_mono now sp rp es r n h

theorem c4_copy_error_blocks_prune_witness :
    (sync_folders 7 "src" "rep" (some (.dir 5 [("x", .file 5 [1])]))
        (some (.dir 0 [("x", .dir 0 []), ("y", .file 0 [2])])) =
      { fs := (copy_files 7 "src" "rep" (.dir 5 [("x", .file 5 [1])])
                 (.dir 0 [("x", .dir 0 []), ("y", .file 0 [2])])).fs,
        evs := Event.syncFolder "rep" ::
          (copy_files 7 "src" "rep" (.dir 5 [("x", .file 5 [1])])
            (.dir 0 [("x", .dir 0 []), ("y", .file 0 [2])])).evs,
        err := some (.isADirectory "rep/x") }) ∧
    ∀ n, ((Entry.dir 0 [("x", .dir 0 []), ("y", .file 0 [2])]).child n).isSome = true →
      ((copy_files 7 "src" "rep" (.dir 5 [("x", .file 5 [1])])
          (.dir 0 [("x", .dir 0 []), ("y", .file 0 [2])])).fs.child n).isSome = true :=
  c4_copy_error_blocks_prune 7 "src" "rep" (.dir 5 [("x", .file 5 [1])])
    (.dir 0 [("x", .dir 0 []), ("y", .file 0 [2])]) (.isADirectory "rep/x")
    (by decide) (by rfl)

/-! ### `fileAt` and the walk listing -/

theorem fileAt_nil (oe : Option Entry) : fileAt oe [] = none := by
  cases oe with
  | none => rfl
  | some e => cases e <;> rfl

theorem fileAt_none (p : List String) : fileAt none p = none := by
  cases p <;> rfl

theorem fileAt_file (mt : Nat) (c : Content) (p : List String) :
    fileAt (some (.file mt c)) p = none := by
  cases p <;> rfl

theorem fileAt_dir_one (mt : Nat) (es : List (String × Entry)) (n : String) :
    fileAt (some (.dir mt es)) [n] =
      match lookup es n with
      | some (.file _ c) => some c
      | _ => none := by
  show (match ([n] : List String), entryAt (lookup es n) [] with
    | _ :: _, some (.file _ c) => some c
    | _, _ => none) = _
  cases hl : lookup es n with
  | none => rfl
  | some e => cases e <;> rfl

theorem fileAt_dir_cons (mt : Nat) (es : List (String × Entry)) (n q : String)
    (p2 : List String) :
    fileAt (some (.dir mt es)) (n :: q :: p2) = fileAt (lookup es n) (q :: p2) := by
  cases hl : lookup es n with
  | none =>
    show (match (n :: q :: p2 : List String), entryAt (lookup es n) (q :: p2) with
      | _ :: _, some (.file _ c) => some c
      | _, _ => none) = _
    rw [hl]
    rfl
  | some e =>
    show (match (n :: q :: p2 : List String), entryAt (lookup es n) (q :: p2) with
      | _ :: _, some (.file _ c) => some c
      | _, _ => none) = _
    rw [hl]
    show _ = (match (q :: p2 : List String), entryAt (some e) (q :: p2) with
      | _ :: _, some (.file _ c) => some c
      | _, _ => none)
    cases he : entryAt (some e) (q :: p2) with
    | none => rfl
    | some x => cases x <;> rfl

theorem mem_filesOf {es : List (String × Entry)} {n : String} {c : Content} :
    (n, c) ∈ filesOf es ↔ ∃ mt, (n, Entry.file mt c) ∈ es := by
  induction es with
  | nil => simp [filesOf]
  | cons p rest ih =>
    obtain ⟨m, e⟩ := p
    cases e with
    | file mt c2 =>
      simp only [filesOf, List.mem_cons, ih, Prod.mk.injEq, Entry.file.injEq]
      aesop
    | dir mt2 es2 =>
      simp only [filesOf, ih, List.mem_cons, Prod.mk.injEq]
      aesop

theorem filesOf_fst_sublist (es : List (String × Entry)) :
    ((filesOf es).map Prod.fst).Sublist (es.map Prod.fst) := by
  induction es with
  | nil => simp [filesOf]
  | cons p rest ih =>
    obtain ⟨m, e⟩ := p
    cases e with
    | file mt c => simpa [filesOf] using ih.cons₂ m
    | dir mt es2 => simpa [filesOf] using ih.cons m

theorem mem_subWalks {es : List (String × Entry)} {n : String}
    {w : List (List Char × Content)} :
    (n, w) ∈ subWalks es ↔ ∃ e, (n, e) ∈ es ∧ w = walkPairs e := by
  induction es with
  | nil => simp [subWalks]
  | cons p rest ih =>
    obtain ⟨m, e⟩ := p
    simp only [subWalks, List.mem_cons, ih, Prod.mk.injEq]
    aesop

theorem map_fst_subWalks (es : List (String × Entry)) :
    (subWalks es).map Prod.fst = es.map Prod.fst := by
  induction es with
  | nil => rfl
  | cons p rest ih =>
    obtain ⟨m, e⟩ := p
    simp [subWalks, ih]

theorem catWalks_nil_of_empty {l : List (String × List (List Char × Content))}
    (h : ∀ p ∈ l, p.2 = []) : catWalks l = [] := by
  induction l with
  | nil => rfl
  | cons p rest ih =>
    rw [catWalks_cons, h p (List.mem_cons_self p rest), ih]
    · rfl
    · intro q hq
      exact h q (List.mem_cons_of_mem p hq)

theorem esize_lt_of_mem {es : List (String × Entry)} {n : String} {e : Entry}
    (h : (n, e) ∈ es) : esize e < 1 + lsize es := by
  induction es with
  | nil => simp at h
  | cons p rest ih =>
    obtain ⟨m, x⟩ := p
    rcases List.mem_cons.mp h with heq | hm
    · cases heq
      rw [lsize]
      omega
    · have := ih hm
      rw [lsize]
      omega

/-! ### Well-formedness plumbing -/

theorem wf_dir_iff (mt : Nat) (es : List (String × Entry)) :
    wf (.dir mt es) = true ↔ (es.map Prod.fst).Nodup ∧ wfList es = true := by
  rw [wf]
  simp [noDupNames_iff, Bool.and_eq_true]

theorem wfList_mem {es : List (String × Entry)} {n : String} {e : Entry}
    (hw : wfList es = true) (h : (n, e) ∈ es) : validName n = true ∧ wf e = true := by
  induction es with
  | nil => simp at h
  | cons p rest ih =>
    obtain ⟨m, x⟩ := p
    rw [wfList, Bool.and_eq_true, Bool.and_eq_true] at hw
    rcases List.mem_cons.mp h with heq | hm
    · cases heq
      exact ⟨hw.1.1, hw.1.2⟩
    · exact ih hw.2 hm

/-! ### The walk listing is determined by the file map -/

theorem sortPairs_ext {α : Type} {l₁ l₂ : List (String × α)}
    (hn₁ : (l₁.map Prod.fst).Nodup) (hn₂ : (l₂.map Prod.fst).Nodup)
    (h : ∀ x, x ∈ l₁ ↔ x ∈ l₂) : sortPairs l₁ = sortPairs l₂ := by
  have hp : l₁.Perm l₂ :=
    (List.perm_ext_iff_of_nodup (List.Nodup.of_map Prod.fst hn₁)
      (List.Nodup.of_map Prod.fst hn₂)).mpr h
  have hperm : (sortPairs l₁).Perm (sortPairs l₂) :=
    ((sortPairs_perm l₁).trans hp).trans (sortPairs_perm l₂).symm
  have hns : ((sortPairs l₁).map Prod.fst).Nodup :=
    (((sortPairs_perm l₁).map Prod.fst).nodup_iff).mpr hn₁
  exact sorted_perm_eq hperm (sortPairs_sorted l₁) (sortPairs_sorted l₂) hns

theorem catWalks_drop_empty :
    ∀ (L : List (String × List (List Char × Content))),
    catWalks L = catWalks (L.filter (fun p => !p.2.isEmpty)) := by
  intro L
  induction L with
  | nil => rfl
  | cons p rest ih =>
    by_cases h : p.2.isEmpty = true
    · have h2 : p.2 = [] := List.isEmpty_iff.mp h
      rw [catWalks_cons, h2]
      simp only [List.map_nil, List.nil_append, List.filter_cons, h]
      simpa using ih
    · rw [catWalks_cons]
      simp only [List.filter_cons, h]
      rw [if_pos (by simp [h]), catWalks_cons, ih]

theorem sortPairs_filter {α : Type} (q : String × α → Bool) (L : List (String × α))
    (hn : (L.map Prod.fst).Nodup) :
    (sortPairs L).filter q = sortPairs (L.filter q) := by
  have hperm : ((sortPairs L).filter q).Perm (sortPairs (L.filter q)) :=
    ((sortPairs_perm L).filter q).trans (sortPairs_perm (L.filter q)).symm
  have hs1 : ((sortPairs L).filter q).Pairwise (fun a b => leName a.1 b.1 = true) :=
    (sortPairs_sorted L).filter q
  have hnf : (((sortPairs L).filter q).map Prod.fst).Nodup := by
    have : ((sortPairs L).map Prod.fst).Nodup :=
      (((sortPairs_perm L).map Prod.fst).nodup_iff).mpr hn
    exact List.Nodup.sublist (List.Sublist.map Prod.fst (List.filter_sublist _)) this
  exact sorted_perm_eq hperm hs1 (sortPairs_sorted (L.filter q)) hnf

/-- A well-formed entry under which no path is a file has an empty walk
listing. -/
theorem walkPairs_nil_of_no_files :
    ∀ (k : Nat) (e : Entry), esize e ≤ k → wf e = true →
    (∀ p, fileAt (some e) p = none) → walkPairs e = [] := by
  intro k
  induction k with
  | zero =>
    intro e hk
    cases e <;> (rw [esize] at hk <;> omega)
  | succ k ih =>
    intro e hk hw h
    cases e with
    | file mt c => rfl
    | dir mt es =>
      rcases (wf_dir_iff mt es).mp hw with ⟨hnd, hwl⟩
      have hfiles : filesOf es = [] := by
        cases hf : filesOf es with
        | nil => rfl
        | cons p rest =>
          obtain ⟨n, c⟩ := p
          have hm : (n, c) ∈ filesOf es := by rw [hf]; exact List.mem_cons_self _ _
          rcases mem_filesOf.mp hm with ⟨mt2, hmem⟩
          have hl : lookup es n = some (.file mt2 c) := mem_lookup_of_nodup hnd hmem
          have := h [n]
          rw [fileAt_dir_one, hl] at this
          simp at this
      rw [walkPairs, hfiles]
      have hsub : ∀ p ∈ sortPairs (subWalks es), p.2 = [] := by
        intro p hp
        obtain ⟨n, w⟩ := p
        rcases mem_subWalks.mp (mem_sortPairs.mp hp) with ⟨e2, hmem, rfl⟩
        have hl : lookup es n = some e2 := mem_lookup_of_nodup hnd hmem
        have hsz : esize e2 ≤ k := by
          have := esize_lt_of_mem hmem
          rw [esize] at hk
          omega
        have hw2 : wf e2 = true := (wfList_mem hwl hmem).2
        apply ih e2 hsz hw2
        intro p
        cases p with
        | nil => exact fileAt_nil _
        | cons q p2 =>
          have := h (n :: q :: p2)
          rw [fileAt_dir_cons, hl] at this
          exact this
      rw [catWalks_nil_of_empty hsub]
      simp [sortPairs]

/-- Two well-formed trees with the same file map (the same content at every
relative path that is a file) have identical walk listings. -/
theorem walkPairs_ext :
    ∀ (k : Nat) (A B : Entry), esize A ≤ k → wf A = true → wf B = true →
    (∀ p, fileAt (some A) p = fileAt (some B) p) →
    walkPairs A = walkPairs B := by
  intro k
  induction k with
  | zero =>
    intro A B hk
    cases A <;> (rw [esize] at hk; omega)
  | succ k ih =>
    intro A B hk hwA hwB h
    cases A with
    | file mtA cA =>
      have hB : ∀ p, fileAt (some B) p = none := by
        intro p
        rw [← h p, fileAt_file]
      rw [walkPairs_nil_of_no_files (esize B) B le_rfl hwB hB]
      rfl
    | dir mtA esA =>
      cases B with
      | file mtB cB =>
        have hA : ∀ p, fileAt (some (.dir mtA esA)) p = none := by
          intro p
          rw [h p, fileAt_file]
        rw [walkPairs_nil_of_no_files (k+1) _ hk hwA hA]
        rfl
      | dir mtB esB =>
        rcases (wf_dir_iff mtA esA).mp hwA with ⟨hndA, hwlA⟩
        rcases (wf_dir_iff mtB esB).mp hwB with ⟨hndB, hwlB⟩
        have hndA2 : ((subWalks esA).map Prod.fst).Nodup := by
          rw [map_fst_subWalks]; exact hndA
        have hndB2 : ((subWalks esB).map Prod.fst).Nodup := by
          rw [map_fst_subWalks]; exact hndB
        rw [walkPairs, walkPairs]
        have hfile : sortPairs (filesOf esA) = sortPairs (filesOf esB) := by
          apply sortPairs_ext
          · exact List.Nodup.sublist (filesOf_fst_sublist esA) hndA
          · exact List.Nodup.sublist (filesOf_fst_sublist esB) hndB
          · intro x
            obtain ⟨n, c⟩ := x
            have key : ∀ (es : List (String × Entry)), (es.map Prod.fst).Nodup →
                ((n, c) ∈ filesOf es ↔
                  (match lookup es n with
                    | some (.file _ c2) => some c2
                    | _ => none) = some c) := by
              intro es hnd
              constructor
              · intro hm
                rcases mem_filesOf.mp hm with ⟨mt2, hmem⟩
                rw [mem_lookup_of_nodup hnd hmem]
              · intro hl
                cases hlk : lookup es n with
                | none => rw [hlk] at hl; simp at hl
                | some e2 =>
                  cases e2 with
                  | file mt2 c2 =>
                    rw [hlk] at hl
                    simp only [Option.some.injEq] at hl
                    subst hl
                    exact mem_filesOf.mpr ⟨mt2, lookup_mem hlk⟩
                  | dir mt2 es2 => rw [hlk] at hl; simp at hl
            rw [key esA hndA, key esB hndB, ← fileAt_dir_one mtA, ← fileAt_dir_one mtB, h [n]]
        rw [hfile]
        congr 1
        have hkey : sortPairs ((subWalks esA).filter (fun p => !p.2.isEmpty)) =
            sortPairs ((subWalks esB).filter (fun p => !p.2.isEmpty)) := by
          apply sortPairs_ext
          · exact List.Nodup.sublist
              (List.Sublist.map Prod.fst (List.filter_sublist _)) hndA2
          · exact List.Nodup.sublist
              (List.Sublist.map Prod.fst (List.filter_sublist _)) hndB2
          · intro x
            obtain ⟨n, w⟩ := x
            simp only [List.mem_filter]
            constructor
            · rintro ⟨hmem, hne⟩
              rcases mem_subWalks.mp hmem with ⟨e2, hmem2, rfl⟩
              have hl2 : lookup esA n = some e2 := mem_lookup_of_nodup hndA hmem2
              have hw2 : wf e2 = true := (wfList_mem hwlA hmem2).2
              have hsz2 : esize e2 ≤ k := by
                have := esize_lt_of_mem hmem2
                rw [esize] at hk
                omega
              have hex : ∃ p c, fileAt (some e2) p = some c := by
                by_contra hno
                push_neg at hno
                have hnone : ∀ p, fileAt (some e2) p = none := by
                  intro p
                  cases hfp : fileAt (some e2) p with
                  | none => rfl
                  | some c => exact absurd hfp (hno p c)
                have := walkPairs_nil_of_no_files (esize e2) e2 le_rfl hw2 hnone
                rw [this] at hne
                simp at hne
              rcases hex with ⟨p, c, hpc⟩
              obtain ⟨pq, pr, rfl⟩ : ∃ q2 p2, p = q2 :: p2 := by
                cases p with
                | nil => rw [fileAt_nil] at hpc; cases hpc
                | cons q2 p2 => exact ⟨q2, p2, rfl⟩
              have hBp : fileAt (lookup esB n) (pq :: pr) = some c := by
                rw [← fileAt_dir_cons mtB]
                rw [← h (n :: pq :: pr)]
                rw [fileAt_dir_cons, hl2]
                exact hpc
              cases hl3 : lookup esB n with
              | none => rw [hl3, fileAt_none] at hBp; cases hBp
              | some e3 =>
                have hmem3 : (n, e3) ∈ esB := lookup_mem hl3
                have hw3 : wf e3 = true := (wfList_mem hwlB hmem3).2
                have heq23 : walkPairs e2 = walkPairs e3 := by
                  apply ih e2 e3 hsz2 hw2 hw3
                  intro p
                  cases p with
                  | nil => rw [fileAt_nil, fileAt_nil]
                  | cons q2 p2 =>
                    have hh := h (n :: q2 :: p2)
                    rw [fileAt_dir_cons, fileAt_dir_cons, hl2, hl3] at hh
                    exact hh
                exact ⟨mem_subWalks.mpr ⟨e3, hmem3, heq23⟩, hne⟩
            · rintro ⟨hmem, hne⟩
              rcases mem_subWalks.mp hmem with ⟨e3, hmem3, rfl⟩
              have hl3 : lookup esB n = some e3 := mem_lookup_of_nodup hndB hmem3
              have hw3 : wf e3 = true := (wfList_mem hwlB hmem3).2
              have hex : ∃ p c, fileAt (some e3) p = some c := by
                by_contra hno
                push_neg at hno
                have hnone : ∀ p, fileAt (some e3) p = none := by
                  intro p
                  cases hfp : fileAt (some e3) p with
                  | none => rfl
                  | some c => exact absurd hfp (hno p c)
                have := walkPairs_nil_of_no_files (esize e3) e3 le_rfl hw3 hnone
                rw [this] at hne
                simp at hne
              rcases hex with ⟨p, c, hpc⟩
              obtain ⟨pq, pr, rfl⟩ : ∃ q2 p2, p = q2 :: p2 := by
                cases p with
                | nil => rw [fileAt_nil] at hpc; cases hpc
                | cons q2 p2 => exact ⟨q2, p2, rfl⟩
              have hAp : fileAt (lookup esA n) (pq :: pr) = some c := by
                rw [← fileAt_dir_cons mtA]
                rw [h (n :: pq :: pr)]
                rw [fileAt_dir_cons, hl3]
                exact hpc
              cases hl2 : lookup esA n with
              | none => rw [hl2, fileAt_none] at hAp; cases hAp
              | some e2 =>
                have hmem2 : (n, e2) ∈ esA := lookup_mem hl2
                have hw2 : wf e2 = true := (wfList_mem hwlA hmem2).2
                have hsz2 : esize e2 ≤ k := by
                  have := esize_lt_of_mem hmem2
                  rw [esize] at hk
                  omega
                have heq23 : walkPairs e2 = walkPairs e3 := by
                  apply ih e2 e3 hsz2 hw2 hw3
                  intro p
                  cases p with
                  | nil => rw [fileAt_nil, fileAt_nil]
                  | cons q2 p2 =>
                    have hh := h (n :: q2 :: p2)
                    rw [fileAt_dir_cons, fileAt_dir_cons, hl2, hl3] at hh
                    exact hh
                exact ⟨mem_subWalks.mpr ⟨e2, hmem2, heq23.symm⟩, hne⟩
        calc catWalks (sortPairs (subWalks esA))
            = catWalks ((sortPairs (subWalks esA)).filter (fun p => !p.2.isEmpty)) :=
              catWalks_drop_empty _
          _ = catWalks (sortPairs ((subWalks esA).filter (fun p => !p.2.isEmpty))) := by
              rw [sortPairs_filter _ _ hndA2]
          _ = catWalks (sortPairs ((subWalks esB).filter (fun p => !p.2.isEmpty))) := by
              rw [hkey]
          _ = catWalks ((sortPairs (subWalks esB)).filter (fun p => !p.2.isEmpty)) := by
              rw [sortPairs_filter _ _ hndB2]
          _ = catWalks (sortPairs (subWalks esB)) := (catWalks_drop_empty _).symm

theorem fileAt_dir_empty (mt : Nat) (p : List String) :
    fileAt (some (.dir mt [])) p = none := by
  cases p with
  | nil => rfl
  | cons n rest =>
    cases rest with
    | nil => rw [fileAt_dir_one]; rfl
    | cons q p2 => rw [fileAt_dir_cons]; exact fileAt_none _

/-! ### Claim C2 -/

/-- **C2**, counterexample — equal digests do not imply equal trees: the
relative path and the file digest are concatenated with no separator, so the
two-file tree `{a ↦ [1], c ↦ [2]}` and the one-file tree
`{"a01c" ↦ [2]}` (whose name is `"a" ++ md5 [1] ++ "c"`) feed the identical
byte stream to the folder hash, yet their sets of relative file paths differ.
Both trees are well formed.  (The same construction collides under the real
32-hex-character md5: name the single file `"a" + md5hex(c1) + "c"`.) -/
theorem c2_collision_counterexample :
    wf (.dir 0 [("a", .file 0 [1]), ("c", .file 0 [2])]) = true ∧
    wf (.dir 0 [("a01c", .file 0 [2])]) = true ∧
    calculate_folder_md5 (some (.dir 0 [("a", .file 0 [1]), ("c", .file 0 [2])])) =
      calculate_folder_md5 (some (.dir 0 [("a01c", .file 0 [2])])) ∧
    fileAt (some (.dir 0 [("a", .file 0 [1]), ("c", .file 0 [2])])) ["a"] = some [1] ∧
    fileAt (some (.dir 0 [("a01c", .file 0 [2])])) ["a"] = none := by
  decide

/-- **C2**, amended — the forward direction holds: if two well-formed trees
have the same set of relative file paths with byte-identical contents (the
same file map), then their folder digests are equal; in particular empty
subdirectories contribute nothing to the digest and cannot affect this
equality.  The converse direction of the original claim is false (see the
collision counterexample): equal digests do not imply equal file sets. -/
theorem c2_equal_files_equal_digest (A B : Entry) (hA : wf A = true) (hB : wf B = true)
    (h : ∀ p, fileAt (some A) p = fileAt (some B) p) :
    calculate_folder_md5 (some A) = calculate_folder_md5 (some B) := by
  rw [calculate_folder_md5_eq_stream, calculate_folder_md5_eq_stream,
    walkPairs_ext (esize A) A B le_rfl hA hB h]

theorem c2_equal_files_equal_digest_witness :
    calculate_folder_md5 (some (.dir 0 [("a", .file 0 [1]), ("d", .dir 5 [])])) =
      calculate_folder_md5 (some (.dir 7 [("a", .file 0 [1])])) := by
  apply c2_equal_files_equal_digest
  · decide
  · decide
  · intro p
    cases p with
    | nil => rw [fileAt_nil, fileAt_nil]
    | cons n rest =>
      cases rest with
      | nil =>
        rw [fileAt_dir_one, fileAt_dir_one]
        by_cases ha : "a" = n
        · simp [lookup, ha]
        · by_cases hd : "d" = n <;> simp [lookup, ha, hd]
      | cons q p2 =>
        rw [fileAt_dir_cons, fileAt_dir_cons]
        by_cases ha : "a" = n
        · simp [lookup, ha]
        · by_cases hd : "d" = n <;>
            simp [lookup, ha, hd, fileAt_none, fileAt_dir_empty]

/-! ### Toward convergence: small facts -/

theorem entryAt_none_eq (p : List String) : entryAt none p = none := by
  cases p <;> rfl

theorem entryAt_nil (oe : Option Entry) : entryAt oe [] = oe := by
  cases oe with
  | none => rfl
  | some e => cases e <;> rfl

theorem entryAt_dir_cons (mt : Nat) (es : List (String × Entry)) (n : String)
    (p : List String) :
    entryAt (some (.dir mt es)) (n :: p) = entryAt (lookup es n) p := rfl

theorem entryAt_file_cons (mt : Nat) (c : Content) (n : String) (p : List String) :
    entryAt (some (.file mt c)) (n :: p) = none := rfl

theorem hexChar_inj {a b : Nat} (ha : a < 16) (hb : b < 16)
    (h : hexChar a = hexChar b) : a = b := by
  interval_cases a <;> interval_cases b <;> simp_all [hexChar]

theorem calculate_md5_inj : ∀ {c1 c2 : Content}, (∀ b ∈ c1, b < 256) →
    (∀ b ∈ c2, b < 256) → calculate_md5 c1 = calculate_md5 c2 → c1 = c2 := by
  intro c1
  induction c1 with
  | nil =>
    intro c2 _ _ h
    cases c2 with
    | nil => rfl
    | cons b2 r2 => simp [calculate_md5, hexByte] at h
  | cons b r ih =>
    intro c2 h1 h2 h
    cases c2 with
    | nil => simp [calculate_md5, hexByte] at h
    | cons b2 r2 =>
      simp only [calculate_md5, hexByte, List.cons_append, List.nil_append,
        List.cons.injEq] at h
      rcases h with ⟨hh1, hh2, hrest⟩
      have hb : b < 256 := h1 b (List.mem_cons_self b r)
      have hb2 : b2 < 256 := h2 b2 (List.mem_cons_self b2 r2)
      have e1 : b / 16 % 16 = b2 / 16 % 16 :=
        hexChar_inj (Nat.mod_lt _ (by omega)) (Nat.mod_lt _ (by omega)) hh1
      have e2 : b % 16 = b2 % 16 :=
        hexChar_inj (Nat.mod_lt _ (by omega)) (Nat.mod_lt _ (by omega)) hh2
      have hbb : b = b2 := by omega
      subst hbb
      have : r = r2 := ih (fun x hx => h1 x (List.mem_cons_of_mem b hx))
        (fun x hx => h2 x (List.mem_cons_of_mem b hx)) hrest
      rw [this]

theorem walkPairs_path_ne_nil :
    ∀ (k : Nat) (e : Entry), esize e ≤ k → wf e = true →
    ∀ q ∈ walkPairs e, q.1 ≠ [] := by
  intro k
  induction k with
  | zero =>
    intro e hk
    cases e <;> (rw [esize] at hk; omega)
  | succ k ih =>
    intro e hk hw q hq
    cases e with
    | file mt c => simp [walkPairs] at hq
    | dir mt es =>
      rcases (wf_dir_iff mt es).mp hw with ⟨hnd, hwl⟩
      rw [walkPairs] at hq
      rcases List.mem_append.mp hq with hf | hd
      · rcases List.mem_map.mp hf with ⟨p, hp, rfl⟩
        obtain ⟨n, c⟩ := p
        rcases mem_filesOf.mp (mem_sortPairs.mp hp) with ⟨mt2, hmem⟩
        have hv : validName n = true := (wfList_mem hwl hmem).1
        rw [validName, Bool.and_eq_true] at hv
        intro hnil
        have : n.data = [] := hnil
        have : n = "" := by
          cases n with
          | mk d => cases this; rfl
        rw [this] at hv
        simp [String.isEmpty] at hv
      · -- q comes from a subdirectory: its path starts with name ++ '/' :: _
        have hmem : ∀ (L : List (String × List (List Char × Content))),
            q ∈ catWalks L → q.1 ≠ [] := by
          intro L
          induction L with
          | nil => intro hq2; simp [catWalks] at hq2
          | cons p rest ihl =>
            intro hq2
            rw [catWalks_cons] at hq2
            rcases List.mem_append.mp hq2 with hh | ht
            · rcases List.mem_map.mp hh with ⟨q2, _, rfl⟩
              simp
            · exact ihl ht
        exact hmem _ hd

theorem streamOfPairs_eq_nil {l : List (List Char × Content)}
    (h : ∀ q ∈ l, q.1 ≠ []) (hs : streamOfPairs l = []) : l = [] := by
  cases l with
  | nil => rfl
  | cons q rest =>
    rw [streamOfPairs_cons] at hs
    have hq : q.1 ≠ [] := h q (List.mem_cons_self q rest)
    cases hqq : q.1 with
    | nil => exact absurd hqq hq
    | cons a as =>
      rw [hqq] at hs
      simp at hs

theorem catWalks_ne_nil {L : List (String × List (List Char × Content))}
    {n : String} {w : List (List Char × Content)}
    (hmem : (n, w) ∈ L) (hne : w ≠ []) : catWalks L ≠ [] := by
  induction L with
  | nil => simp at hmem
  | cons p rest ih =>
    rw [catWalks_cons]
    rcases List.mem_cons.mp hmem with heq | hm
    · cases heq
      simp only [ne_eq, List.append_eq_nil, not_and]
      intro hmap
      rw [List.map_eq_nil_iff] at hmap
      exact absurd hmap hne
    · intro happ
      rcases List.append_eq_nil.mp happ with ⟨_, htail⟩
      exact ih hm htail

theorem walkPairs_ne_nil_of_file :
    ∀ (p : List String) (e : Entry) (n : String) (mt : Nat) (c : Content),
    wf e = true → entryAt (some e) (n :: p) = some (.file mt c) →
    walkPairs e ≠ [] := by
  intro p
  induction p with
  | nil =>
    intro e n mt c hw hl
    cases e with
    | file mt2 c2 => rw [entryAt_file_cons] at hl; cases hl
    | dir mt2 es =>
      rw [entryAt_dir_cons, entryAt_nil] at hl
      have hl2 : lookup es n = some (.file mt c) := hl
      have hmem : (n, Entry.file mt c) ∈ es := lookup_mem hl2
      have hf : (n, c) ∈ filesOf es := mem_filesOf.mpr ⟨mt, hmem⟩
      rw [walkPairs]
      intro happ
      rcases List.append_eq_nil.mp happ with ⟨hmap, _⟩
      rw [List.map_eq_nil_iff] at hmap
      have : (n, c) ∈ sortPairs (filesOf es) := mem_sortPairs.mpr hf
      rw [hmap] at this
      simp at this
  | cons n2 p2 ih =>
    intro e n mt c hw hl
    cases e with
    | file mt2 c2 => rw [entryAt_file_cons] at hl; cases hl
    | dir mt2 es =>
      rw [entryAt_dir_cons] at hl
      cases hlk : lookup es n with
      | none => rw [hlk, entryAt_none_eq] at hl; cases hl
      | some e2 =>
        rw [hlk] at hl
        rcases (wf_dir_iff mt2 es).mp hw with ⟨hnd, hwl⟩
        have hmem2 : (n, e2) ∈ es := lookup_mem hlk
        have hw2 : wf e2 = true := (wfList_mem hwl hmem2).2
        have hne2 : walkPairs e2 ≠ [] := ih e2 n2 mt c hw2 hl
        rw [walkPairs]
        intro happ
        rcases List.append_eq_nil.mp happ with ⟨_, hcat⟩
        have hsw : (n, walkPairs e2) ∈ sortPairs (subWalks es) :=
          mem_sortPairs.mpr (mem_subWalks.mpr ⟨e2, hmem2, rfl⟩)
        exact catWalks_ne_nil hsw hne2 hcat

/-- A well-formed tree whose digest is the empty stream has no file at any
nonempty relative path. -/
theorem digest_nil_no_file {e : Entry} (hw : wf e = true)
    (hd : calculate_folder_md5 (some e) = []) {n : String} {p : List String}
    {mt : Nat} {c : Content} (hl : entryAt (some e) (n :: p) = some (.file mt c)) :
    False := by
  rw [calculate_folder_md5_eq_stream] at hd
  have hpaths := walkPairs_path_ne_nil (esize e) e le_rfl hw
  have := streamOfPairs_eq_nil hpaths hd
  exact walkPairs_ne_nil_of_file p e n mt c hw hl this

theorem lookup_filter_name (f : String → Bool) (des : List (String × Entry)) (m : String) :
    lookup (des.filter (fun p => f p.1)) m = if f m = true then lookup des m else none := by
  induction des with
  | nil => simp [lookup]
  | cons p rest ih =>
    obtain ⟨k, e⟩ := p
    by_cases hk : k = m
    · subst hk
      by_cases hf : f k = true <;> simp [List.filter_cons, hf, lookup, ih]
    · by_cases hf : f k = true <;> simp [List.filter_cons, hf, lookup, hk, ih]

theorem copy_item_err_file_rep (now : Nat) (sp rp : String) (n : String) (se : Entry)
    (fm : Nat) (fc : Content) :
    (copy_item now sp rp n se (.file fm fc)).err =
      some (.notADirectory (rp ++ "/" ++ n)) := by
  cases se <;> rfl

theorem convPair_of_syncConv {smt : Nat} {ses : List (String × Entry)} {fs : Entry}
    (h : syncConv (.dir smt ses) fs) : convPair (.dir smt ses) (some fs) := by
  constructor
  · intro p mt c hp
    cases p with
    | nil =>
      rw [entryAt_nil] at hp
      simp at hp
    | cons q p2 => exact h.1 (q :: p2) mt c (by simp) hp
  · intro p hp
    cases p with
    | nil => simp [entryAt_nil]
    | cons q p2 => exact h.2 (q :: p2) (by simp) hp

/-- One copy step establishes convergence for its item, touches no other name,
and extends the listing by at most its own (previously absent) name. -/
theorem copy_item_conv (k now : Nat) (sp rp : String)
    (IH : ∀ (s2 : Entry) (rep2 : Option Entry) (now2 : Nat) (sp2 rp2 : String),
      esize s2 ≤ k → wf s2 = true → wfO rep2 = true → goodFor s2 rep2 →
      (sync_entry now2 sp2 rp2 s2 rep2).err = none →
      syncConv s2 (sync_entry now2 sp2 rp2 s2 rep2).fs)
    (n : String) (se : Entry) (dmt : Nat) (des : List (String × Entry))
    (hsz : esize se ≤ k) (hwse : wf se = true)
    (hwdes : ∀ e2, lookup des n = some e2 → wf e2 = true)
    (hgood : ∀ p se2 re2, entryAt (some se) p = some se2 →
      entryAt (lookup des n) p = some re2 → goodPair se2 re2)
    (herr : (copy_item now sp rp n se (.dir dmt des)).err = none) :
    ∃ dmt2 des2, (copy_item now sp rp n se (.dir dmt des)).fs = .dir dmt2 des2 ∧
      convPair se (lookup des2 n) ∧
      (∀ m, m ≠ n → lookup des2 m = lookup des m) ∧
      (des2.map Prod.fst = des.map Prod.fst ∨
        (lookup des n = none ∧ des2.map Prod.fst = des.map Prod.fst ++ [n])) := by
  cases se with
  | file smt sc =>
    rw [copy_item, copy_step] at herr ⊢
    cases hl : lookup des n with
    | none =>
      rw [hl] at herr
      try dsimp only at herr
      try dsimp only
      refine ⟨now, des ++ [(n, .file smt sc)], rfl, ?_, ?_, ?_⟩
      · have hlk : lookup (des ++ [(n, Entry.file smt sc)]) n = some (.file smt sc) := by
          rw [lookup_append_none hl]
          simp [lookup]
        constructor
        · intro p mt c hp
          cases p with
          | nil =>
            rw [entryAt_nil] at hp
            simp only [Option.some.injEq, Entry.file.injEq] at hp
            exact ⟨smt, by rw [entryAt_nil, hlk, hp.2]⟩
          | cons q p2 => rw [entryAt_file_cons] at hp; cases hp
        · intro p hp
          cases p with
          | nil => simp [entryAt_nil]
          | cons q p2 =>
            rw [hlk, entryAt_file_cons] at hp
            simp at hp
      · intro m hm
        cases hdm : lookup des m with
        | none =>
          rw [lookup_append_none hdm]
          simp [lookup, Ne.symm hm]
        | some x => rw [lookup_append_some hdm]
      · right
        exact ⟨rfl, by simp⟩
    | some re =>
      cases re with
      | file rmt rc =>
        rw [hl] at herr
        try dsimp only at herr
        try dsimp only
        by_cases hmt : rmt < smt
        · rw [if_pos hmt] at herr ⊢
          by_cases hmd : calculate_md5 sc ≠ calculate_md5 rc
          · rw [if_pos hmd] at herr ⊢
            refine ⟨dmt, updateEntry des n (.file smt sc), rfl, ?_, ?_, ?_⟩
            · have hlk : lookup (updateEntry des n (.file smt sc)) n =
                  some (.file smt sc) := lookup_updateEntry_self hl
              constructor
              · intro p mt c hp
                cases p with
                | nil =>
                  rw [entryAt_nil] at hp
                  simp only [Option.some.injEq, Entry.file.injEq] at hp
                  exact ⟨smt, by rw [entryAt_nil, hlk, hp.2]⟩
                | cons q p2 => rw [entryAt_file_cons] at hp; cases hp
              · intro p hp
                cases p with
                | nil => simp [entryAt_nil]
                | cons q p2 =>
                  rw [hlk, entryAt_file_cons] at hp
                  simp at hp
            · intro m hm
              exact lookup_updateEntry_ne hm
            · left
              exact map_fst_updateEntry des n _
          · rw [if_neg hmd] at herr ⊢
            push_neg at hmd
            have hrcwf : wf (.file rmt rc) = true := hwdes _ hl
            rw [wf] at hwse hrcwf
            have hcc : sc = rc := calculate_md5_inj
              (by intro b hb; have := List.all_eq_true.mp hwse b hb; simpa using this)
              (by intro b hb; have := List.all_eq_true.mp hrcwf b hb; simpa using this)
              hmd
            subst hcc
            refine ⟨dmt, des, rfl, ?_, fun m hm => rfl, Or.inl rfl⟩
            constructor
            · intro p mt c hp
              cases p with
              | nil =>
                rw [entryAt_nil] at hp
                simp only [Option.some.injEq, Entry.file.injEq] at hp
                exact ⟨rmt, by rw [entryAt_nil, hl, hp.2]⟩
              | cons q p2 => rw [entryAt_file_cons] at hp; cases hp
            · intro p hp
              cases p with
              | nil => simp [entryAt_nil]
              | cons q p2 =>
                rw [hl, entryAt_file_cons] at hp
                simp at hp
        · rw [if_neg hmt] at herr ⊢
          have hg := hgood [] (.file smt sc) (.file rmt rc)
            (by rw [entryAt_nil]) (by rw [entryAt_nil, hl])
          rcases hg with hg | ⟨c2, smt2, rmt2, hse, hre⟩
          · exact absurd hg hmt
          · simp only [Entry.file.injEq] at hse hre
            obtain ⟨h1, h2⟩ := hse
            obtain ⟨h3, h4⟩ := hre
            have hrc : rc = sc := by rw [h4, ← h2]
            subst hrc
            refine ⟨dmt, des, rfl, ?_, fun m hm => rfl, Or.inl rfl⟩
            constructor
            · intro p mt c hp
              cases p with
              | nil =>
                rw [entryAt_nil] at hp
                simp only [Option.some.injEq, Entry.file.injEq] at hp
                exact ⟨rmt, by rw [entryAt_nil, hl, hp.2]⟩
              | cons q p2 => rw [entryAt_file_cons] at hp; cases hp
            · intro p hp
              cases p with
              | nil => simp [entryAt_nil]
              | cons q p2 =>
                rw [hl, entryAt_file_cons] at hp
                simp at hp
      | dir rmt rsub =>
        rw [hl] at herr
        try dsimp only at herr
        by_cases hmt : rmt < smt
        · rw [if_pos hmt] at herr
          simp at herr
        · have hg := hgood [] (.file smt sc) (.dir rmt rsub)
            (by rw [entryAt_nil]) (by rw [entryAt_nil, hl])
          rcases hg with hg | ⟨c2, smt2, rmt2, hse, hre⟩
          · exact absurd hg hmt
          · simp at hre
  | dir smt ses =>
    rw [copy_item] at herr ⊢
    cases hl : lookup des n with
    | none =>
      rw [hl] at herr
      try dsimp only at herr
      try dsimp only
      have hsync := IH (.dir smt ses) none now (sp ++ "/" ++ n) (rp ++ "/" ++ n)
        hsz hwse rfl ?good ?err
      case good =>
        intro p se2 re2 h1 h2
        rw [entryAt_none_eq] at h2
        cases h2
      case err => exact herr
      refine ⟨now, des ++ [(n, (sync_entry now (sp ++ "/" ++ n) (rp ++ "/" ++ n)
        (.dir smt ses) none).fs)], rfl, ?_, ?_, ?_⟩
      · have hlk : lookup (des ++ [(n, (sync_entry now (sp ++ "/" ++ n)
            (rp ++ "/" ++ n) (.dir smt ses) none).fs)]) n =
            some (sync_entry now (sp ++ "/" ++ n) (rp ++ "/" ++ n)
              (.dir smt ses) none).fs := by
          rw [lookup_append_none hl]
          simp [lookup]
        rw [hlk]
        exact convPair_of_syncConv hsync
      · intro m hm
        cases hdm : lookup des m with
        | none =>
          rw [lookup_append_none hdm]
          simp [lookup, Ne.symm hm]
        | some x => rw [lookup_append_some hdm]
      · right
        exact ⟨rfl, by simp⟩
    | some re =>
      rw [hl] at herr
      try dsimp only at herr
      try dsimp only
      have hwre : wf re = true := hwdes _ hl
      have hsync := IH (.dir smt ses) (some re) now (sp ++ "/" ++ n) (rp ++ "/" ++ n)
        hsz hwse (by rw [wfO]; exact hwre) ?good2 ?err2
      case good2 =>
        intro p se2 re2 h1 h2
        exact hgood p se2 re2 h1 (by rw [hl]; exact h2)
      case err2 => exact herr
      refine ⟨dmt, updateEntry des n (sync_entry now (sp ++ "/" ++ n) (rp ++ "/" ++ n)
        (.dir smt ses) (some re)).fs, rfl, ?_, ?_, ?_⟩
      · rw [lookup_updateEntry_self hl]
        exact convPair_of_syncConv hsync
      · intro m hm
        exact lookup_updateEntry_ne hm
      · left
        exact map_fst_updateEntry des n _

/-- The copy loop establishes convergence for every source item, touches no
other replica name, keeps the listing duplicate-free and adds only
source-item names. -/
theorem copyList_conv (k now : Nat) (sp rp : String)
    (IH : ∀ (s2 : Entry) (rep2 : Option Entry) (now2 : Nat) (sp2 rp2 : String),
      esize s2 ≤ k → wf s2 = true → wfO rep2 = true → goodFor s2 rep2 →
      (sync_entry now2 sp2 rp2 s2 rep2).err = none →
      syncConv s2 (sync_entry now2 sp2 rp2 s2 rep2).fs) :
    ∀ (items : List (String × Entry)) (dmt : Nat) (des des0 : List (String × Entry)),
    (items.map Prod.fst).Nodup →
    (∀ x ∈ items, esize x.2 ≤ k ∧ wf x.2 = true) →
    (∀ x ∈ items, lookup des x.1 = lookup des0 x.1) →
    (∀ (n2 : String) (e2 : Entry), lookup des0 n2 = some e2 → wf e2 = true) →
    (∀ x ∈ items, ∀ p se2 re2, entryAt (some x.2) p = some se2 →
      entryAt (lookup des0 x.1) p = some re2 → goodPair se2 re2) →
    (des.map Prod.fst).Nodup →
    (copyList now sp rp items (.dir dmt des)).err = none →
    ∃ dmt2 des2, (copyList now sp rp items (.dir dmt des)).fs = .dir dmt2 des2 ∧
      (∀ x ∈ items, convPair x.2 (lookup des2 x.1)) ∧
      (∀ m, m ∉ items.map Prod.fst → lookup des2 m = lookup des m) ∧
      (des2.map Prod.fst).Nodup ∧
      (∀ m, (lookup des2 m).isSome = true →
        (lookup des m).isSome = true ∨ m ∈ items.map Prod.fst) := by
  intro items
  induction items with
  | nil =>
    intro dmt des des0 _ _ _ _ _ hdesnd herr
    exact ⟨dmt, des, rfl, by simp, fun m _ => rfl, hdesnd, fun m h => Or.inl h⟩
  | cons x rest ihl =>
    intro dmt des des0 hnd hszw hagree hdes0 hgood hdesnd herr
    obtain ⟨n, se⟩ := x
    rw [copyList_cons] at herr ⊢
    cases herr0 : (copy_item now sp rp n se (.dir dmt des)).err with
    | some e =>
      rw [herr0] at herr
      dsimp only at herr
      rw [herr0] at herr
      cases herr
    | none =>
      rw [herr0] at herr
      try dsimp only at herr
      try dsimp only
      have hwdesn : ∀ e2, lookup des n = some e2 → wf e2 = true := by
        intro e2 hl2
        apply hdes0 n e2
        rw [← hagree (n, se) (List.mem_cons_self _ _)]
        exact hl2
      have hgoodn : ∀ p se2 re2, entryAt (some se) p = some se2 →
          entryAt (lookup des n) p = some re2 → goodPair se2 re2 := by
        intro p se2 re2 h1 h2
        apply hgood (n, se) (List.mem_cons_self _ _) p se2 re2 h1
        rw [← hagree (n, se) (List.mem_cons_self _ _)]
        exact h2
      obtain ⟨hszn, hwn⟩ := hszw (n, se) (List.mem_cons_self _ _)
      obtain ⟨dmtA, desA, hfsA, hconvA, hframeA, hnamesA⟩ :=
        copy_item_conv k now sp rp IH n se dmt des hszn hwn hwdesn hgoodn herr0
      rw [hfsA] at herr ⊢
      have hnn : n ∉ rest.map Prod.fst := (List.nodup_cons.mp hnd).1
      have hdesAnd : (desA.map Prod.fst).Nodup := by
        rcases hnamesA with hA | ⟨hnone, hA⟩
        · rw [hA]; exact hdesnd
        · rw [hA]
          rw [List.nodup_append]
          refine ⟨hdesnd, by simp, ?_⟩
          intro a ha
          simp only [List.mem_singleton]
          intro han
          subst han
          rw [lookup_eq_none_iff] at hnone
          exact hnone ha
      have hagreeR : ∀ x ∈ rest, lookup desA x.1 = lookup des0 x.1 := by
        intro x hx
        have hxny : x.1 ≠ n := by
          intro hxn
          exact hnn (hxn ▸ List.mem_map.mpr ⟨x, hx, rfl⟩)
        rw [hframeA x.1 hxny]
        exact hagree x (List.mem_cons_of_mem _ hx)
      obtain ⟨dmt2, des2, hfs2, hconv2, hframe2, hnd2, hprov2⟩ :=
        ihl dmtA desA des0 (List.nodup_cons.mp hnd).2
          (fun x hx => hszw x (List.mem_cons_of_mem _ hx))
          hagreeR hdes0
          (fun x hx => hgood x (List.mem_cons_of_mem _ hx))
          hdesAnd herr
      refine ⟨dmt2, des2, hfs2, ?_, ?_, hnd2, ?_⟩
      · intro x hx
        rcases List.mem_cons.mp hx with heq | hxm
        · cases heq
          have : lookup des2 n = lookup desA n := hframe2 n hnn
          rw [this]
          exact hconvA
        · exact hconv2 x hxm
      · intro m hm
        simp only [List.map_cons, List.mem_cons, not_or] at hm
        rw [hframe2 m hm.2, hframeA m (fun h2 => hm.1 h2)]
      · intro m hsome
        rcases hprov2 m hsome with hA | hrest
        · rw [lookup_isSome_iff] at hA
          rcases hnamesA with hN | ⟨_, hN⟩
          · rw [hN] at hA
            left
            rw [lookup_isSome_iff]
            exact hA
          · rw [hN] at hA
            rcases List.mem_append.mp hA with hA2 | hA2
            · left
              rw [lookup_isSome_iff]
              exact hA2
            · right
              simp only [List.mem_singleton] at hA2
              simp [hA2]
        · right
          simp [hrest]

/-- Convergence of the copy-then-prune tail of one `sync_entry` call on a
directory pair. -/
theorem sync_tail_conv (k now : Nat) (sp rp : String)
    (IH : ∀ (s2 : Entry) (rep2 : Option Entry) (now2 : Nat) (sp2 rp2 : String),
      esize s2 ≤ k → wf s2 = true → wfO rep2 = true → goodFor s2 rep2 →
      (sync_entry now2 sp2 rp2 s2 rep2).err = none →
      syncConv s2 (sync_entry now2 sp2 rp2 s2 rep2).fs)
    (smt : Nat) (ses : List (String × Entry)) (dmt0 : Nat)
    (des0 : List (String × Entry))
    (hws : wf (.dir smt ses) = true)
    (hitems : ∀ x ∈ ses, esize x.2 ≤ k ∧ wf x.2 = true)
    (hdes0w : ∀ (n2 : String) (e2 : Entry), lookup des0 n2 = some e2 → wf e2 = true)
    (hdes0nd : (des0.map Prod.fst).Nodup)
    (hgoodl : ∀ x ∈ ses, ∀ p se2 re2, entryAt (some x.2) p = some se2 →
        entryAt (lookup des0 x.1) p = some re2 → goodPair se2 re2)
    (hcerr : (copyList now sp rp ses (.dir dmt0 des0)).err = none) :
    syncConv (.dir smt ses)
      (remove_files now rp (.dir smt ses)
        (copyList now sp rp ses (.dir dmt0 des0)).fs).fs := by
  have hnd : (ses.map Prod.fst).Nodup := ((wf_dir_iff smt ses).mp hws).1
  obtain ⟨dmt2, des2, hfs2, hconv, hframe, hnd2, hprov⟩ :=
    copyList_conv k now sp rp IH ses dmt0 des0 des0 hnd hitems
      (fun x hx => rfl) hdes0w hgoodl hdes0nd hcerr
  rw [hfs2]
  rw [remove_files_filter now rp (.dir smt ses) dmt2 des2 ((noDupNames_iff _).mpr hnd2)]
  have hlf : ∀ (m : String),
      lookup (des2.filter (fun p => ((Entry.dir smt ses).child p.1).isSome)) m =
        if ((Entry.dir smt ses).child m).isSome = true then lookup des2 m else none :=
    lookup_filter_name (fun nn => ((Entry.dir smt ses).child nn).isSome) des2
  constructor
  · intro p mt c hp hfile
    cases p with
    | nil => exact absurd rfl hp
    | cons n pp =>
      rw [entryAt_dir_cons] at hfile
      cases hls : lookup ses n with
      | none => rw [hls, entryAt_none_eq] at hfile; cases hfile
      | some se =>
        rw [hls] at hfile
        have hmem : (n, se) ∈ ses := lookup_mem hls
        obtain ⟨mt2, hres⟩ := (hconv (n, se) hmem).1 pp mt c hfile
        refine ⟨mt2, ?_⟩
        rw [entryAt_dir_cons, hlf n]
        have hchild : ((Entry.dir smt ses).child n).isSome = true := by
          rw [Entry.child, hls]
          rfl
        rw [if_pos hchild]
        exact hres
  · intro p hp hsome
    cases p with
    | nil => exact absurd rfl hp
    | cons n pp =>
      rw [entryAt_dir_cons, hlf n] at hsome
      by_cases hchild : ((Entry.dir smt ses).child n).isSome = true
      · rw [if_pos hchild] at hsome
        rw [Entry.child] at hchild
        cases hls : lookup ses n with
        | none => rw [hls] at hchild; simp at hchild
        | some se =>
          have hmem : (n, se) ∈ ses := lookup_mem hls
          have := (hconv (n, se) hmem).2 pp hsome
          rw [entryAt_dir_cons, hls]
          exact this
      · rw [if_neg hchild] at hsome
        rw [entryAt_none_eq] at hsome
        simp at hsome

/-- Amended convergence: if `sync` completes without error and at every
relative path present in both initial trees the source side is strictly newer
or both sides are files with equal content, then every file strictly below
the source root exists in the resulting replica with identical content, and
every path present in the resulting replica exists in the source. -/
theorem sync_conv :
    ∀ (k : Nat) (s : Entry) (rep : Option Entry) (now : Nat) (sp rp : String),
    esize s ≤ k → wf s = true → wfO rep = true → goodFor s rep →
    (sync_entry now sp rp s rep).err = none →
    syncConv s (sync_entry now sp rp s rep).fs := by
  intro k
  induction k with
  | zero =>
    intro s rep now sp rp hk
    cases s <;> (rw [esize] at hk; omega)
  | succ k ih =>
    intro s rep now sp rp hk hws hwrep hgood herr
    rw [sync_entry.eq_def] at herr ⊢
    dsimp only at herr ⊢
    by_cases hsc : s.mtime ≤ (repE now rep).mtime ∧
        calculate_folder_md5 (some s) = calculate_folder_md5 (some (repE now rep))
    · rw [if_pos hsc] at herr ⊢
      dsimp only
      cases rep with
      | none =>
        have hdig : calculate_folder_md5 (some s) = [] := by
          have h2 := hsc.2
          rw [show calculate_folder_md5 (some (repE now none)) = [] from rfl] at h2
          exact h2
        constructor
        · intro p mt c hp hfile
          exfalso
          cases p with
          | nil => exact hp rfl
          | cons nn pp => exact digest_nil_no_file hws hdig hfile
        · intro p hp hsome
          cases p with
          | nil => exact absurd rfl hp
          | cons nn pp =>
            rw [show repE now none = .dir now [] from rfl] at hsome
            rw [entryAt_dir_cons] at hsome
            rw [show lookup [] nn = none from rfl, entryAt_none_eq] at hsome
            simp at hsome
      | some r =>
        have hg := hgood [] s r (by rw [entryAt_nil]) (by rw [entryAt_nil])
        rcases hg with hg | ⟨c2, smt2, rmt2, hse, hre⟩
        · exfalso
          have h1 := hsc.1
          rw [show repE now (some r) = r from rfl] at h1
          omega
        · subst hse
          subst hre
          constructor
          · intro p mt c hp hfile
            cases p with
            | nil => exact absurd rfl hp
            | cons nn pp => rw [entryAt_file_cons] at hfile; cases hfile
          · intro p hp hsome
            cases p with
            | nil => exact absurd rfl hp
            | cons nn pp =>
              rw [show repE now (some (Entry.file rmt2 c2)) = .file rmt2 c2 from rfl] at hsome
              rw [entryAt_file_cons] at hsome
              simp at hsome
    · rw [if_neg hsc] at herr ⊢
      cases s with
      | file smt sc =>
        exfalso
        dsimp only at herr
        cases herr
      | dir smt ses =>
        dsimp only at herr ⊢
        cases hcerr : (copyList now sp rp ses (repE now rep)).err with
        | some e =>
          exfalso
          rw [hcerr] at herr
          dsimp only at herr
          cases herr
        | none =>
          rw [hcerr] at herr
          dsimp only at herr ⊢
          have hitems : ∀ x ∈ ses, esize x.2 ≤ k ∧ wf x.2 = true := by
            intro x hx
            constructor
            · have h1 : esize x.2 < 1 + lsize ses := by
                obtain ⟨n2, e2⟩ := x
                show esize e2 < 1 + lsize ses
                exact esize_lt_of_mem hx
              rw [esize] at hk
              omega
            · obtain ⟨n2, e2⟩ := x
              show wf e2 = true
              exact (wfList_mem ((wf_dir_iff smt ses).mp hws).2 hx).2
          cases rep with
          | none =>
            have htail := sync_tail_conv k now sp rp ih smt ses now [] hws hitems
              (by intro n2 e2 hl; simp [lookup] at hl)
              (by simp)
              (by
                intro x hx p se2 re2 h1 h2
                rw [show lookup ([] : List (String × Entry)) x.1 = none from rfl,
                  entryAt_none_eq] at h2
                cases h2)
              hcerr
            exact htail
          | some r =>
            cases r with
            | file fm fc =>
              exfalso
              cases ses with
              | nil =>
                rw [show (copyList now sp rp [] (repE now (some (.file fm fc)))).fs =
                  .file fm fc from rfl] at herr
                simp [remove_files] at herr
              | cons x xs =>
                obtain ⟨n2, se2⟩ := x
                rw [copyList_cons] at hcerr
                rw [show repE now (some (Entry.file fm fc)) = Entry.file fm fc from rfl]
                  at hcerr
                rw [copy_item_err_file_rep now sp rp n2 se2 fm fc] at hcerr
                dsimp only at hcerr
                rw [copy_item_err_file_rep now sp rp n2 se2 fm fc] at hcerr
                cases hcerr
            | dir rmt rdes =>
              have hwr : wf (.dir rmt rdes) = true := hwrep
              rcases (wf_dir_iff rmt rdes).mp hwr with ⟨hndr, hwlr⟩
              have htail := sync_tail_conv k now sp rp ih smt ses rmt rdes hws hitems
                (by
                  intro n2 e2 hl
                  exact (wfList_mem hwlr (lookup_mem hl)).2)
                hndr
                (by
                  intro x hx p se2 re2 h1 h2
                  obtain ⟨a, b⟩ := x
                  have hndn : (ses.map Prod.fst).Nodup := ((wf_dir_iff smt ses).mp hws).1
                  have hls : lookup ses a = some b := mem_lookup_of_nodup hndn hx
                  exact hgood (a :: p) se2 re2
                    (by rw [entryAt_dir_cons, hls]; exact h1)
                    (by rw [entryAt_dir_cons]; exact h2))
                hcerr
              exact htail

/-- **C1** — counterexample to unconditional convergence: a run of
`sync_folders` that completes without error (`err = none`) on a source whose
file `a` has content `[1]`, yet leaves the replica's file `a` with its old
content `[2]`: the replica file is newer than the source file and the
overwrite branch of `copy_files` requires the source to be strictly newer,
so the stale replica content survives an error-free pass. -/
theorem c1_convergence_counterexample :
    (sync_folders 100 "s" "r" (some (.dir 0 [("a", .file 0 [1])]))
        (some (.dir 5 [("a", .file 5 [2])]))).err = none ∧
    fileAt (some (.dir 0 [("a", .file 0 [1])])) ["a"] = some [1] ∧
    fileAt (some ((sync_folders 100 "s" "r" (some (.dir 0 [("a", .file 0 [1])]))
        (some (.dir 5 [("a", .file 5 [2])]))).fs)) ["a"] = some [2] := by
  refine ⟨rfl, rfl, rfl⟩

/-- **C1** (amended) — convergence holds under the extra hypothesis that at
every relative path present in both initial trees the replica side is
strictly older or both sides are files of equal content (`goodFor`): if
`sync_folders` on an existing source then completes without error, every
file strictly below the source root exists in the final replica at the same
relative path with identical content, and every path present in the final
replica exists in the source. -/
theorem c1_convergence_amended (now : Nat) (sp rp : String) (s : Entry)
    (rep : Option Entry) (hws : wf s = true) (hwr : wfO rep = true)
    (hgood : goodFor s rep)
    (herr : (sync_folders now sp rp (some s) rep).err = none) :
    syncConv s (sync_folders now sp rp (some s) rep).fs :=
  sync_conv (esize s) s rep now sp rp le_rfl hws hwr hgood herr

theorem c1_convergence_amended_witness :
    wf (Entry.dir 0 [("a", .file 3 [1])]) = true ∧
    syncConv (Entry.dir 0 [("a", .file 3 [1])])
      (sync_folders 9 "s" "r" (some (.dir 0 [("a", .file 3 [1])])) none).fs :=
  ⟨by decide, c1_convergence_amended 9 "s" "r" (.dir 0 [("a", .file 3 [1])]) none
    (by decide) (by decide)
    (by intro p se re hs hr; rw [entryAt_none_eq] at hr; cases hr)
    (by decide)⟩

/-- A source listing is `syncedList` against a replica listing exactly when
every item has a `synced` entry of the same name. -/
theorem syncedList_iff (ses res : List (String × Entry)) :
    syncedList ses res = true ↔
      ∀ x ∈ ses, ∃ y, lookup res x.1 = some y ∧ synced x.2 y = true := by
  induction ses with
  | nil => simp [syncedList]
  | cons x rest ih =>
    obtain ⟨n, e⟩ := x
    rw [syncedList, Bool.and_eq_true, ih]
    cases hl : lookup res n with
    | none =>
      dsimp only
      constructor
      · intro h
        cases h.1
      · intro h
        obtain ⟨y, hy, _⟩ := h (n, e) (List.mem_cons_self _ _)
        rw [show (n, e).1 = n from rfl, hl] at hy
        cases hy
    | some y =>
      dsimp only
      constructor
      · rintro ⟨h1, h2⟩
        intro x hx
        rcases List.mem_cons.mp hx with heq | hm
        · subst heq
          exact ⟨y, hl, h1⟩
        · exact h2 x hm
      · intro h
        refine ⟨?_, fun x hx => h x (List.mem_cons_of_mem _ hx)⟩
        obtain ⟨y2, hy2, hs2⟩ := h (n, e) (List.mem_cons_self _ _)
        rw [show (n, e).1 = n from rfl, hl] at hy2
        cases hy2
        exact hs2

theorem noCopyRemove_append (a b : List Event) :
    noCopyRemove (a ++ b) = (noCopyRemove a && noCopyRemove b) := by
  simp [noCopyRemove]

/-- A copy step whose replica entry is already `synced` with the source file
does nothing: no copy, no overwrite, no event, no error. -/
theorem copy_step_quiet (now : Nat) (sp rp : String) (n : String) (smt : Nat)
    (sc : Content) (dmt : Nat) (des : List (String × Entry)) (y : Entry)
    (hl : lookup des n = some y) (hs : synced (.file smt sc) y = true) :
    copy_step now sp rp n smt sc (.dir dmt des) =
      { fs := .dir dmt des, evs := [], err := none } := by
  cases y with
  | file rmt rc =>
    rw [synced, Bool.or_eq_true, decide_eq_true_iff, decide_eq_true_iff] at hs
    rcases hs with h | h
    · have hm : ¬ rmt < smt := by omega
      simp [copy_step, hl, hm]
    · by_cases hm : rmt < smt
      · simp [copy_step, hl, hm, h]
      · simp [copy_step, hl, hm]
  | dir rmt res =>
    rw [synced, decide_eq_true_iff] at hs
    have hm : ¬ rmt < smt := by omega
    simp [copy_step, hl, hm]

/-- One error-free iteration of the copy loop leaves the processed name
`synced` with its source item, touches no other name, and at most appends the
one processed name to the listing. -/
theorem copy_item_post (k now : Nat) (sp rp : String)
    (IH : ∀ (s2 : Entry) (rep2 : Option Entry) (now2 : Nat) (sp2 rp2 : String),
      esize s2 ≤ k → wf s2 = true → wfO rep2 = true →
      (sync_entry now2 sp2 rp2 s2 rep2).err = none →
      synced s2 (sync_entry now2 sp2 rp2 s2 rep2).fs = true)
    (n : String) (se : Entry) (dmt : Nat) (des : List (String × Entry))
    (hsz : esize se ≤ k) (hwse : wf se = true)
    (hwdes : ∀ e2, lookup des n = some e2 → wf e2 = true)
    (herr : (copy_item now sp rp n se (.dir dmt des)).err = none) :
    ∃ dmt2 des2, (copy_item now sp rp n se (.dir dmt des)).fs = .dir dmt2 des2 ∧
      (∃ y, lookup des2 n = some y ∧ synced se y = true) ∧
      (∀ m, m ≠ n → lookup des2 m = lookup des m) ∧
      (des2.map Prod.fst = des.map Prod.fst ∨
        (lookup des n = none ∧ des2.map Prod.fst = des.map Prod.fst ++ [n])) := by
  cases se with
  | file smt sc =>
    rw [copy_item, copy_step] at herr ⊢
    cases hl : lookup des n with
    | none =>
      rw [hl] at herr
      try dsimp only at herr
      try dsimp only
      refine ⟨now, des ++ [(n, .file smt sc)], rfl, ?_, ?_, ?_⟩
      · refine ⟨.file smt sc, ?_, ?_⟩
        · rw [lookup_append_none hl]
          simp [lookup]
        · rw [synced]
          simp
      · intro m hm
        cases hdm : lookup des m with
        | none =>
          rw [lookup_append_none hdm]
          simp [lookup, Ne.symm hm]
        | some x => rw [lookup_append_some hdm]
      · right
        exact ⟨rfl, by simp⟩
    | some re =>
      cases re with
      | file rmt rc =>
        rw [hl] at herr
        try dsimp only at herr
        try dsimp only
        by_cases hmt : rmt < smt
        · rw [if_pos hmt] at herr ⊢
          by_cases hmd : calculate_md5 sc ≠ calculate_md5 rc
          · rw [if_pos hmd] at herr ⊢
            refine ⟨dmt, updateEntry des n (.file smt sc), rfl, ?_, ?_, ?_⟩
            · refine ⟨.file smt sc, lookup_updateEntry_self hl, ?_⟩
              rw [synced]
              simp
            · intro m hm
              exact lookup_updateEntry_ne hm
            · left
              exact map_fst_updateEntry des n _
          · rw [if_neg hmd] at herr ⊢
            push_neg at hmd
            refine ⟨dmt, des, rfl, ⟨.file rmt rc, hl, ?_⟩, fun m hm => rfl, Or.inl rfl⟩
            rw [synced]
            simp [hmd]
        · rw [if_neg hmt] at herr ⊢
          refine ⟨dmt, des, rfl, ⟨.file rmt rc, hl, ?_⟩, fun m hm => rfl, Or.inl rfl⟩
          rw [synced]
          simp
          omega
      | dir rmt rsub =>
        rw [hl] at herr
        try dsimp only at herr
        try dsimp only
        by_cases hmt : rmt < smt
        · rw [if_pos hmt] at herr
          simp at herr
        · rw [if_neg hmt] at herr ⊢
          refine ⟨dmt, des, rfl, ⟨.dir rmt rsub, hl, ?_⟩, fun m hm => rfl, Or.inl rfl⟩
          rw [synced]
          simp
          omega
  | dir smt ses =>
    rw [copy_item] at herr ⊢
    cases hl : lookup des n with
    | none =>
      rw [hl] at herr
      try dsimp only at herr
      try dsimp only
      have hsync := IH (.dir smt ses) none now (sp ++ "/" ++ n) (rp ++ "/" ++ n)
        hsz hwse rfl herr
      refine ⟨now, des ++ [(n, (sync_entry now (sp ++ "/" ++ n) (rp ++ "/" ++ n)
        (.dir smt ses) none).fs)], rfl, ?_, ?_, ?_⟩
      · refine ⟨(sync_entry now (sp ++ "/" ++ n) (rp ++ "/" ++ n)
          (.dir smt ses) none).fs, ?_, hsync⟩
        rw [lookup_append_none hl]
        simp [lookup]
      · intro m hm
        cases hdm : lookup des m with
        | none =>
          rw [lookup_append_none hdm]
          simp [lookup, Ne.symm hm]
        | some x => rw [lookup_append_some hdm]
      · right
        exact ⟨rfl, by simp⟩
    | some re =>
      rw [hl] at herr
      try dsimp only at herr
      try dsimp only
      have hwre : wf re = true := hwdes _ hl
      have hsync := IH (.dir smt ses) (some re) now (sp ++ "/" ++ n) (rp ++ "/" ++ n)
        hsz hwse (by rw [wfO]; exact hwre) herr
      refine ⟨dmt, updateEntry des n (sync_entry now (sp ++ "/" ++ n) (rp ++ "/" ++ n)
        (.dir smt ses) (some re)).fs, rfl, ?_, ?_, ?_⟩
      · exact ⟨_, lookup_updateEntry_self hl, hsync⟩
      · intro m hm
        exact lookup_updateEntry_ne hm
      · left
        exact map_fst_updateEntry des n _

/-- The error-free copy loop leaves every source item's name holding an entry
`synced` with that item, touches no other replica name, keeps the listing
duplicate-free and adds only source-item names. -/
theorem copyList_post (k now : Nat) (sp rp : String)
    (IH : ∀ (s2 : Entry) (rep2 : Option Entry) (now2 : Nat) (sp2 rp2 : String),
      esize s2 ≤ k → wf s2 = true → wfO rep2 = true →
      (sync_entry now2 sp2 rp2 s2 rep2).err = none →
      synced s2 (sync_entry now2 sp2 rp2 s2 rep2).fs = true) :
    ∀ (items : List (String × Entry)) (dmt : Nat) (des des0 : List (String × Entry)),
    (items.map Prod.fst).Nodup →
    (∀ x ∈ items, esize x.2 ≤ k ∧ wf x.2 = true) →
    (∀ x ∈ items, lookup des x.1 = lookup des0 x.1) →
    (∀ (n2 : String) (e2 : Entry), lookup des0 n2 = some e2 → wf e2 = true) →
    (des.map Prod.fst).Nodup →
    (copyList now sp rp items (.dir dmt des)).err = none →
    ∃ dmt2 des2, (copyList now sp rp items (.dir dmt des)).fs = .dir dmt2 des2 ∧
      (∀ x ∈ items, ∃ y, lookup des2 x.1 = some y ∧ synced x.2 y = true) ∧
      (∀ m, m ∉ items.map Prod.fst → lookup des2 m = lookup des m) ∧
      (des2.map Prod.fst).Nodup ∧
      (∀ m, (lookup des2 m).isSome = true →
        (lookup des m).isSome = true ∨ m ∈ items.map Prod.fst) := by
  intro items
  induction items with
  | nil =>
    intro dmt des des0 _ _ _ _ hdesnd herr
    exact ⟨dmt, des, rfl, by simp, fun m _ => rfl, hdesnd, fun m h => Or.inl h⟩
  | cons x rest ihl =>
    intro dmt des des0 hnd hszw hagree hdes0 hdesnd herr
    obtain ⟨n, se⟩ := x
    rw [copyList_cons] at herr ⊢
    cases herr0 : (copy_item now sp rp n se (.dir dmt des)).err with
    | some e =>
      rw [herr0] at herr
      dsimp only at herr
      rw [herr0] at herr
      cases herr
    | none =>
      rw [herr0] at herr
      try dsimp only at herr
      try dsimp only
      have hwdesn : ∀ e2, lookup des n = some e2 → wf e2 = true := by
        intro e2 hl2
        apply hdes0 n e2
        rw [← hagree (n, se) (List.mem_cons_self _ _)]
        exact hl2
      obtain ⟨hszn, hwn⟩ := hszw (n, se) (List.mem_cons_self _ _)
      obtain ⟨dmtA, desA, hfsA, hpostA, hframeA, hnamesA⟩ :=
        copy_item_post k now sp rp IH n se dmt des hszn hwn hwdesn herr0
      rw [hfsA] at herr ⊢
      have hnn : n ∉ rest.map Prod.fst := (List.nodup_cons.mp hnd).1
      have hdesAnd : (desA.map Prod.fst).Nodup := by
        rcases hnamesA with hA | ⟨hnone, hA⟩
        · rw [hA]; exact hdesnd
        · rw [hA]
          rw [List.nodup_append]
          refine ⟨hdesnd, by simp, ?_⟩
          intro a ha
          simp only [List.mem_singleton]
          intro han
          subst han
          rw [lookup_eq_none_iff] at hnone
          exact hnone ha
      have hagreeR : ∀ x ∈ rest, lookup desA x.1 = lookup des0 x.1 := by
        intro x hx
        have hxny : x.1 ≠ n := by
          intro hxn
          exact hnn (hxn ▸ List.mem_map.mpr ⟨x, hx, rfl⟩)
        rw [hframeA x.1 hxny]
        exact hagree x (List.mem_cons_of_mem _ hx)
      obtain ⟨dmt2, des2, hfs2, hpost2, hframe2, hnd2, hprov2⟩ :=
        ihl dmtA desA des0 (List.nodup_cons.mp hnd).2
          (fun x hx => hszw x (List.mem_cons_of_mem _ hx))
          hagreeR hdes0 hdesAnd herr
      refine ⟨dmt2, des2, hfs2, ?_, ?_, hnd2, ?_⟩
      · intro x hx
        rcases List.mem_cons.mp hx with heq | hxm
        · cases heq
          have heq2 : lookup des2 n = lookup desA n := hframe2 n hnn
          rw [heq2]
          exact hpostA
        · exact hpost2 x hxm
      · intro m hm
        simp only [List.map_cons, List.mem_cons, not_or] at hm
        rw [hframe2 m hm.2, hframeA m (fun h2 => hm.1 h2)]
      · intro m hsome
        rcases hprov2 m hsome with hA | hrest
        · rw [lookup_isSome_iff] at hA
          rcases hnamesA with hN | ⟨_, hN⟩
          · rw [hN] at hA
            left
            rw [lookup_isSome_iff]
            exact hA
          · rw [hN] at hA
            rcases List.mem_append.mp hA with hA2 | hA2
            · left
              rw [lookup_isSome_iff]
              exact hA2
            · right
              simp only [List.mem_singleton] at hA2
              simp [hA2]
        · right
          simp [hrest]

/-- After the error-free copy-then-prune tail of `sync_entry` on a directory
source, the resulting replica directory is `synced` with the source. -/
theorem sync_tail_post (k now : Nat) (sp rp : String)
    (IH : ∀ (s2 : Entry) (rep2 : Option Entry) (now2 : Nat) (sp2 rp2 : String),
      esize s2 ≤ k → wf s2 = true → wfO rep2 = true →
      (sync_entry now2 sp2 rp2 s2 rep2).err = none →
      synced s2 (sync_entry now2 sp2 rp2 s2 rep2).fs = true)
    (smt : Nat) (ses : List (String × Entry)) (dmt0 : Nat)
    (des0 : List (String × Entry))
    (hws : wf (.dir smt ses) = true)
    (hitems : ∀ x ∈ ses, esize x.2 ≤ k ∧ wf x.2 = true)
    (hdes0w : ∀ (n2 : String) (e2 : Entry), lookup des0 n2 = some e2 → wf e2 = true)
    (hdes0nd : (des0.map Prod.fst).Nodup)
    (hcerr : (copyList now sp rp ses (.dir dmt0 des0)).err = none) :
    synced (.dir smt ses)
      (remove_files now rp (.dir smt ses)
        (copyList now sp rp ses (.dir dmt0 des0)).fs).fs = true := by
  have hnd : (ses.map Prod.fst).Nodup := ((wf_dir_iff smt ses).mp hws).1
  obtain ⟨dmt2, des2, hfs2, hpost, hframe, hnd2, hprov⟩ :=
    copyList_post k now sp rp IH ses dmt0 des0 des0 hnd hitems
      (fun x hx => rfl) hdes0w hdes0nd hcerr
  rw [hfs2]
  rw [remove_files_filter now rp (.dir smt ses) dmt2 des2 ((noDupNames_iff _).mpr hnd2)]
  rw [synced]
  try dsimp only
  rw [Bool.or_eq_true]
  right
  rw [Bool.and_eq_true, Bool.and_eq_true]
  refine ⟨⟨?_, ?_⟩, ?_⟩
  · rw [syncedList_iff]
    intro x hx
    obtain ⟨a, b⟩ := x
    have hlx : lookup ses a = some b := mem_lookup_of_nodup hnd hx
    have hchild : ((Entry.dir smt ses).child a).isSome = true := by
      rw [Entry.child, hlx]
      rfl
    rw [lookup_filter_name (fun nn => ((Entry.dir smt ses).child nn).isSome) des2 a,
      if_pos hchild]
    exact hpost (a, b) hx
  · exact (noDupNames_iff _).mpr
      (((List.filter_sublist des2).map Prod.fst).nodup hnd2)
  · rw [List.all_eq_true]
    intro p hp
    have hchild := (List.mem_filter.mp hp).2
    rw [Entry.child] at hchild
    exact hchild

/-- An error-free `sync_entry` pass leaves the replica `synced` with the
source. -/
theorem sync_post :
    ∀ (k : Nat) (s : Entry) (rep : Option Entry) (now : Nat) (sp rp : String),
    esize s ≤ k → wf s = true → wfO rep = true →
    (sync_entry now sp rp s rep).err = none →
    synced s (sync_entry now sp rp s rep).fs = true := by
  intro k
  induction k with
  | zero =>
    intro s rep now sp rp hk
    cases s <;> (rw [esize] at hk; omega)
  | succ k ih =>
    intro s rep now sp rp hk hws hwrep herr
    rw [sync_entry.eq_def] at herr ⊢
    dsimp only at herr ⊢
    by_cases hsc : s.mtime ≤ (repE now rep).mtime ∧
        calculate_folder_md5 (some s) = calculate_folder_md5 (some (repE now rep))
    · rw [if_pos hsc] at herr ⊢
      dsimp only
      cases s with
      | file smt sc =>
        have h1 := hsc.1
        cases hre : repE now rep with
        | file rmt rc =>
          rw [hre] at h1
          rw [synced]
          simp
          left
          exact h1
        | dir rmt res =>
          rw [hre] at h1
          rw [synced]
          simp
          exact h1
      | dir smt ses =>
        rw [synced.eq_def]
        dsimp only
        rw [Bool.or_eq_true]
        left
        rw [Bool.and_eq_true, decide_eq_true_iff, decide_eq_true_iff]
        exact ⟨hsc.1, hsc.2⟩
    · rw [if_neg hsc] at herr ⊢
      cases s with
      | file smt sc =>
        exfalso
        dsimp only at herr
        cases herr
      | dir smt ses =>
        dsimp only at herr ⊢
        cases hcerr : (copyList now sp rp ses (repE now rep)).err with
        | some e =>
          exfalso
          rw [hcerr] at herr
          dsimp only at herr
          cases herr
        | none =>
          rw [hcerr] at herr
          dsimp only at herr ⊢
          have hitems : ∀ x ∈ ses, esize x.2 ≤ k ∧ wf x.2 = true := by
            intro x hx
            constructor
            · have h1 : esize x.2 < 1 + lsize ses := by
                obtain ⟨n2, e2⟩ := x
                show esize e2 < 1 + lsize ses
                exact esize_lt_of_mem hx
              rw [esize] at hk
              omega
            · obtain ⟨n2, e2⟩ := x
              show wf e2 = true
              exact (wfList_mem ((wf_dir_iff smt ses).mp hws).2 hx).2
          cases rep with
          | none =>
            exact sync_tail_post k now sp rp ih smt ses now [] hws hitems
              (by intro n2 e2 hl; simp [lookup] at hl)
              (by simp)
              hcerr
          | some r =>
            cases r with
            | file fm fc =>
              exfalso
              cases ses with
              | nil =>
                rw [show (copyList now sp rp [] (repE now (some (.file fm fc)))).fs =
                  .file fm fc from rfl] at herr
                simp [remove_files] at herr
              | cons x xs =>
                obtain ⟨n2, se2⟩ := x
                rw [copyList_cons] at hcerr
                rw [show repE now (some (Entry.file fm fc)) = Entry.file fm fc from rfl]
                  at hcerr
                rw [copy_item_err_file_rep now sp rp n2 se2 fm fc] at hcerr
                dsimp only at hcerr
                rw [copy_item_err_file_rep now sp rp n2 se2 fm fc] at hcerr
                cases hcerr
            | dir rmt rdes =>
              have hwr : wf (.dir rmt rdes) = true := hwrep
              rcases (wf_dir_iff rmt rdes).mp hwr with ⟨hndr, hwlr⟩
              exact sync_tail_post k now sp rp ih smt ses rmt rdes hws hitems
                (by
                  intro n2 e2 hl
                  exact (wfList_mem hwlr (lookup_mem hl)).2)
                hndr
                hcerr

/-- The copy loop over a replica directory whose entries are already `synced`
with the source items emits no copy, overwrite or removal event, and (when it
raises no error) leaves the listing with exactly the same names. -/
theorem copyList_quiet (k now : Nat) (sp rp : String)
    (IH : ∀ (s2 re2 : Entry) (now2 : Nat) (sp2 rp2 : String),
      esize s2 ≤ k → wf s2 = true → synced s2 re2 = true →
      noCopyRemove (sync_entry now2 sp2 rp2 s2 (some re2)).evs = true) :
    ∀ (items : List (String × Entry)) (dmt : Nat) (cur : List (String × Entry)),
    (items.map Prod.fst).Nodup →
    (∀ x ∈ items, esize x.2 ≤ k ∧ wf x.2 = true) →
    (∀ x ∈ items, ∃ y, lookup cur x.1 = some y ∧ synced x.2 y = true) →
    noCopyRemove (copyList now sp rp items (.dir dmt cur)).evs = true ∧
    ((copyList now sp rp items (.dir dmt cur)).err = none →
      ∃ dmt2 cur2, (copyList now sp rp items (.dir dmt cur)).fs = .dir dmt2 cur2 ∧
        cur2.map Prod.fst = cur.map Prod.fst) := by
  intro items
  induction items with
  | nil =>
    intro dmt cur _ _ _
    exact ⟨rfl, fun _ => ⟨dmt, cur, rfl, rfl⟩⟩
  | cons x rest ihl =>
    intro dmt cur hnd hszw hsyn
    obtain ⟨n, se⟩ := x
    rw [copyList_cons]
    obtain ⟨y, hy, hsy⟩ := hsyn (n, se) (List.mem_cons_self _ _)
    cases se with
    | file smt sc =>
      have hstep : copy_item now sp rp n (.file smt sc) (.dir dmt cur) =
          { fs := .dir dmt cur, evs := [], err := none } := by
        rw [copy_item]
        exact copy_step_quiet now sp rp n smt sc dmt cur y hy hsy
      rw [hstep]
      dsimp only
      obtain ⟨hq, hrest⟩ := ihl dmt cur (List.nodup_cons.mp hnd).2
        (fun x hx => hszw x (List.mem_cons_of_mem _ hx))
        (fun x hx => hsyn x (List.mem_cons_of_mem _ hx))
      constructor
      · rw [List.nil_append]
        exact hq
      · intro herr2
        exact hrest herr2
    | dir dsm dses =>
      have hstep : copy_item now sp rp n (.dir dsm dses) (.dir dmt cur) =
          { fs := .dir dmt (updateEntry cur n (sync_entry now (sp ++ "/" ++ n)
              (rp ++ "/" ++ n) (.dir dsm dses) (some y)).fs),
            evs := (sync_entry now (sp ++ "/" ++ n) (rp ++ "/" ++ n)
              (.dir dsm dses) (some y)).evs,
            err := (sync_entry now (sp ++ "/" ++ n) (rp ++ "/" ++ n)
              (.dir dsm dses) (some y)).err } := by
        rw [copy_item]
        rw [hy]
      rw [hstep]
      obtain ⟨hsz, hwse⟩ := hszw (n, .dir dsm dses) (List.mem_cons_self _ _)
      have hq1 := IH (.dir dsm dses) y now (sp ++ "/" ++ n) (rp ++ "/" ++ n) hsz hwse hsy
      cases hre : (sync_entry now (sp ++ "/" ++ n) (rp ++ "/" ++ n)
          (.dir dsm dses) (some y)).err with
      | some e =>
        dsimp only
        constructor
        · exact hq1
        · intro h
          cases h
      | none =>
        dsimp only
        obtain ⟨hq2, hrest⟩ := ihl dmt
          (updateEntry cur n (sync_entry now (sp ++ "/" ++ n) (rp ++ "/" ++ n)
            (.dir dsm dses) (some y)).fs)
          (List.nodup_cons.mp hnd).2
          (fun x hx => hszw x (List.mem_cons_of_mem _ hx))
          (by
            intro x hx
            have hxny : x.1 ≠ n := by
              intro hxn
              exact (List.nodup_cons.mp hnd).1
                (hxn ▸ List.mem_map.mpr ⟨x, hx, rfl⟩)
            obtain ⟨y2, hy2, hs2⟩ := hsyn x (List.mem_cons_of_mem _ hx)
            exact ⟨y2, by rw [lookup_updateEntry_ne hxny]; exact hy2, hs2⟩)
        constructor
        · rw [noCopyRemove_append, Bool.and_eq_true]
          exact ⟨hq1, hq2⟩
        · intro herr2
          obtain ⟨dmt2, cur2, hfs2, hnames2⟩ := hrest herr2
          refine ⟨dmt2, cur2, hfs2, ?_⟩
          rw [hnames2, map_fst_updateEntry]

/-- Running `sync_entry` against a replica that is `synced` with the source
emits no copy, overwrite or removal event. -/
theorem sync_quiet_of_synced :
    ∀ (k : Nat) (s re : Entry) (now : Nat) (sp rp : String),
    esize s ≤ k → wf s = true → synced s re = true →
    noCopyRemove (sync_entry now sp rp s (some re)).evs = true := by
  intro k
  induction k with
  | zero =>
    intro s re now sp rp hk
    cases s <;> (rw [esize] at hk; omega)
  | succ k ih =>
    intro s re now sp rp hk hws hsyn
    rw [sync_entry.eq_def]
    dsimp only
    rw [show repE now (some re) = re from rfl]
    by_cases hsc : s.mtime ≤ re.mtime ∧
        calculate_folder_md5 (some s) = calculate_folder_md5 (some re)
    · rw [if_pos hsc]
      rfl
    · rw [if_neg hsc]
      cases s with
      | file smt sc => rfl
      | dir smt ses =>
        dsimp only
        rw [synced.eq_def] at hsyn
        dsimp only at hsyn
        rw [Bool.or_eq_true] at hsyn
        rcases hsyn with hg | hg
        · exfalso
          rw [Bool.and_eq_true, decide_eq_true_iff, decide_eq_true_iff] at hg
          exact hsc ⟨hg.1, hg.2⟩
        · cases re with
          | file fm fc => cases hg
          | dir rmt res =>
            rw [Bool.and_eq_true, Bool.and_eq_true] at hg
            obtain ⟨⟨hsl, hndres⟩, hall⟩ := hg
            have hnd : (ses.map Prod.fst).Nodup := ((wf_dir_iff smt ses).mp hws).1
            have hitems : ∀ x ∈ ses, esize x.2 ≤ k ∧ wf x.2 = true := by
              intro x hx
              constructor
              · have h1 : esize x.2 < 1 + lsize ses := by
                  obtain ⟨n2, e2⟩ := x
                  show esize e2 < 1 + lsize ses
                  exact esize_lt_of_mem hx
                rw [esize] at hk
                omega
              · obtain ⟨n2, e2⟩ := x
                show wf e2 = true
                exact (wfList_mem ((wf_dir_iff smt ses).mp hws).2 hx).2
            obtain ⟨hq, hrest⟩ := copyList_quiet k now sp rp
              (fun s2 re2 now2 sp2 rp2 h1 h2 h3 => ih s2 re2 now2 sp2 rp2 h1 h2 h3)
              ses rmt res hnd hitems ((syncedList_iff ses res).mp hsl)
            cases hcerr : (copyList now sp rp ses (.dir rmt res)).err with
            | some e =>
              dsimp only
              rw [show repEvs rp (some (Entry.dir rmt res)) = [] from rfl]
              rw [List.nil_append, noCopyRemove_append, Bool.and_eq_true]
              refine ⟨rfl, hq⟩
            | none =>
              dsimp only
              obtain ⟨dmt2, cur2, hfs2, hnames2⟩ := hrest hcerr
              rw [hfs2]
              have hcur2nd : (cur2.map Prod.fst).Nodup := by
                rw [hnames2]
                exact (noDupNames_iff _).mp hndres
              rw [remove_files_filter now rp (.dir smt ses) dmt2 cur2
                ((noDupNames_iff _).mpr hcur2nd)]
              have hallcur : cur2.all
                  (fun p => ((Entry.dir smt ses).child p.1).isSome) = true := by
                rw [List.all_eq_true]
                intro p hp
                have hmem : p.1 ∈ cur2.map Prod.fst := List.mem_map.mpr ⟨p, hp, rfl⟩
                rw [hnames2] at hmem
                rw [← lookup_isSome_iff] at hmem
                obtain ⟨z, hz⟩ := Option.isSome_iff_exists.mp hmem
                have := List.all_eq_true.mp hall _ (lookup_mem hz)
                rw [Entry.child]
                exact this
              have hevs : cur2.filterMap (fun p =>
                  if ((Entry.dir smt ses).child p.1).isSome then none
                  else some (match p.2 with
                    | .dir _ _ => Event.removedFolder p.1 (rp ++ "/" ++ p.1)
                    | .file _ _ => Event.removedFile p.1 (rp ++ "/" ++ p.1))) = [] := by
                have hie := filterMap_isEmpty_iff_all (.dir smt ses) rp cur2
                rw [hallcur] at hie
                exact List.isEmpty_iff.mp hie
              dsimp only
              rw [hevs]
              rw [show repEvs rp (some (Entry.dir rmt res)) = [] from rfl]
              rw [List.nil_append, List.append_nil, noCopyRemove_append, Bool.and_eq_true]
              exact ⟨rfl, hq⟩

/-- **C6** — counterexample to unconditional idempotence: two successive
`sync_folders` runs on the same unchanged source.  The first run aborts with
an error inside `sub` (copying file `x` onto a directory `x`), after having
copied `sub/w`; that copy makes the second run's digests for `sub` collide
(the unseparated `path ++ md5` concatenation of `w`,`x`,`y` equals that of the
single leftover file `x07y`), so the second run skips `sub` — but then still
copies the never-processed top-level file `t`: the second run emits a copy
event. -/
theorem c6_idempotence_counterexample :
    noCopyRemove (sync_folders 200 "s" "r"
      (some (.dir 50 [("sub", .dir 5 [("w", .file 9 [13]), ("x", .file 5 [7]),
        ("y", .file 1 [8])]), ("t", .file 3 [9])]))
      (some (sync_folders 100 "s" "r"
        (some (.dir 50 [("sub", .dir 5 [("w", .file 9 [13]), ("x", .file 5 [7]),
          ("y", .file 1 [8])]), ("t", .file 3 [9])]))
        (some (.dir 0 [("sub", .dir 0 [("x", .dir 0 []),
          ("x07y", .file 9 [8])])]))).fs)).evs = false ∧
    Event.copiedFile "t" ("s" ++ "/" ++ "t") ("r" ++ "/" ++ "t") ∈
      (sync_folders 200 "s" "r"
        (some (.dir 50 [("sub", .dir 5 [("w", .file 9 [13]), ("x", .file 5 [7]),
          ("y", .file 1 [8])]), ("t", .file 3 [9])]))
        (some (sync_folders 100 "s" "r"
          (some (.dir 50 [("sub", .dir 5 [("w", .file 9 [13]), ("x", .file 5 [7]),
            ("y", .file 1 [8])]), ("t", .file 3 [9])]))
          (some (.dir 0 [("sub", .dir 0 [("x", .dir 0 []),
            ("x07y", .file 9 [8])])]))).fs)).evs := by
  constructor <;> decide

/-- **C6** (amended) — idempotence holds for an error-free first pass: if the
first `sync_folders` run on a well-formed source completes without error,
then a second run on the unchanged source over the first run's replica emits
no copy, overwrite or removal event (whatever its wall-clock time and
whether or not it errors). -/
theorem c6_idempotence_amended (now1 now2 : Nat) (sp1 rp1 sp2 rp2 : String)
    (s : Entry) (rep : Option Entry) (hws : wf s = true) (hwr : wfO rep = true)
    (herr : (sync_folders now1 sp1 rp1 (some s) rep).err = none) :
    noCopyRemove (sync_folders now2 sp2 rp2 (some s)
      (some (sync_folders now1 sp1 rp1 (some s) rep).fs)).evs = true :=
  sync_quiet_of_synced (esize s) s _ now2 sp2 rp2 le_rfl hws
    (sync_post (esize s) s rep now1 sp1 rp1 le_rfl hws hwr herr)

theorem c6_idempotence_amended_witness :
    wf (Entry.dir 0 [("b", .file 2 [4])]) = true ∧
    noCopyRemove (sync_folders 7 "c" "d" (some (.dir 0 [("b", .file 2 [4])]))
      (some (sync_folders 5 "a" "b" (some (.dir 0 [("b", .file 2 [4])])) none).fs)).evs
      = true :=
  ⟨by decide, c6_idempotence_amended 5 7 "a" "b" "c" "d"
    (.dir 0 [("b", .file 2 [4])]) none (by decide) (by decide) (by decide)⟩
